import Mathlib

/-!
Verification development for the `sc` in-memory caching library.

The Go sources are shallowly embedded:
* `value.go` (monoTime version): `isFresh` / `isExpired` over `monoTime = Int`
  (nanosecond counts; the int64 range of ~290 years makes overflow immaterial,
  so `Int` is used without wraparound).
* `lru/lru.go`: the LRU cache as a list of key/value pairs in MRU-to-LRU
  order plus its capacity.
* `tq` (2Q cache): two LRU segments plus a ghost LRU of keys.
* `config.go` / `New`: construction validation.
* `cache.go`: the freshness/coalescing state machine, embedded as a
  small-step interleaving semantics; each mutex-protected section of the Go
  code is one atomic step.

Keys, values and error payloads are specialized to `Nat`; the Go code is
generic but treats them opaquely, so nothing is lost.
-/

namespace Sc

/-! ## Monotonic time and the value record (value.go, monoTime version) -/

/-- `monoTime` is the elapsed nanoseconds since process start (int64 in Go). -/
abbrev MonoTime := Int

/-- A cache item: the stored value and the instant the loader producing it
was invoked (`value[V]` in value.go). -/
structure Val where
  v : Nat
  created : MonoTime
  deriving Repr, DecidableEq

/-- `value.isFresh`: `now < v.created + monoTime(freshFor)`. -/
def Val.isFresh (val : Val) (now : MonoTime) (freshFor : Int) : Bool :=
  now < val.created + freshFor

/-- `value.isExpired`: `v.created + monoTime(ttl) < now`. -/
def Val.isExpired (val : Val) (now : MonoTime) (ttl : Int) : Bool :=
  val.created + ttl < now

/-- Modelled from the spec: a record is *stale* iff it is neither fresh nor
expired (the Go code computes this state implicitly inside `Get`). -/
def Val.isStale (val : Val) (now : MonoTime) (freshFor ttl : Int) : Bool :=
  !val.isFresh now freshFor && !val.isExpired now ttl

end Sc

namespace Lru

/-- The LRU cache of `lru/lru.go`: the linked list `ll` is kept in
MRU-to-LRU order (head = most recently used); the `items` map is implicit,
since for the capacities reachable through `sc` (`> 0` for the top-level
backend) it always maps exactly the keys on the list to their nodes.
`capacity` is the Go `int` option field. Values are specialized to a type
parameter `V` so the 2Q cache can reuse this for its keys-only ghost list. -/
structure Cache (V : Type) where
  ll : List (Nat × V)
  capacity : Int
  deriving Repr, DecidableEq

/-- `lru.New` with `lru.WithCapacity cap`. -/
def new (V : Type) (cap : Int) : Cache V := ⟨[], cap⟩

/-- `lru.Cache.Len`: the linked list length. -/
def Cache.len (c : Cache V) : Nat := c.ll.length

/-- Key membership test backing the implicit `items` map. -/
def keyP (k : Nat) : Nat × V → Bool := fun e => e.1 = k

/-- `lru.Cache.Peek`: lookup without touching recency. -/
def Cache.peek (c : Cache V) (k : Nat) : Option V :=
  (c.ll.find? (keyP k)).map Prod.snd

/-- `lru.Cache.Set`: if the key exists, update the node's value and move it
to the front; otherwise push a new node to the front and, if the length now
exceeds the capacity, delete the back node. -/
def Cache.set (c : Cache V) (k : Nat) (v : V) : Cache V :=
  if (c.peek k).isSome then
    { c with ll := (k, v) :: c.ll.eraseP (keyP k) }
  else
    let l : List (Nat × V) := (k, v) :: c.ll
    if c.capacity < (l.length : Int) then { c with ll := l.dropLast }
    else { c with ll := l }

/-- `lru.Cache.Get`: on a hit, move the node to the front. Returns the
found value (if any) together with the updated cache. -/
def Cache.get (c : Cache V) (k : Nat) : Option V × Cache V :=
  match c.peek k with
  | none => (none, c)
  | some v => (some v, { c with ll := (k, v) :: c.ll.eraseP (keyP k) })

/-- `lru.Cache.Delete`: remove the node if present. The current `lru`
revision also reports whether a node was removed (its callers in `tq` use
that result); the removal semantics is that of `lru/lru.go`. -/
def Cache.delete (c : Cache V) (k : Nat) : Bool × Cache V :=
  ((c.peek k).isSome, { c with ll := c.ll.eraseP (keyP k) })

/-- `lru.Cache.DeleteOldest`: remove the back node, returning it. -/
def Cache.deleteOldest (c : Cache V) : Option (Nat × V) × Cache V :=
  match c.ll.getLast? with
  | none => (none, c)
  | some e => (some e, { c with ll := c.ll.dropLast })

/-- `lru.Cache.DeleteIf`: remove all entries matching the predicate. -/
def Cache.deleteIf (c : Cache V) (p : Nat → V → Bool) : Cache V :=
  { c with ll := c.ll.filter (fun e => !p e.1 e.2) }

/-- `lru.Cache.Purge` (called `Flush` in the revision `tq` links against):
empty the list. -/
def Cache.purge (c : Cache V) : Cache V := { c with ll := [] }

theorem isSome_peek (c : Cache V) (k : Nat) :
    (c.peek k).isSome = (c.ll.find? (keyP k)).isSome := by
  unfold Cache.peek
  cases c.ll.find? (keyP k) <;> rfl

theorem len_set_le_succ (c : Cache V) (k : Nat) (v : V) :
    (c.set k v).len ≤ c.len + 1 := by
  unfold Cache.set Cache.len
  split
  · simp only [List.length_cons]
    exact Nat.succ_le_succ (List.length_eraseP_le _)
  · dsimp only
    split
    · simp [List.length_dropLast]
    · simp

theorem len_set_le_cap (c : Cache V) (k : Nat) (v : V)
    (h : (c.len : Int) ≤ c.capacity) : ((c.set k v).len : Int) ≤ c.capacity := by
  unfold Cache.set Cache.len
  split
  · rename_i hmem
    rw [isSome_peek, List.find?_isSome] at hmem
    obtain ⟨e, he, hpe⟩ := hmem
    have := List.length_eraseP_of_mem he hpe
    simp only [List.length_cons, this]
    have hpos : 1 ≤ c.ll.length := List.length_pos_of_mem he
    unfold Cache.len at h
    omega
  · dsimp only
    split
    · rename_i hover
      simp only [List.length_dropLast, List.length_cons]
      unfold Cache.len at h
      omega
    · rename_i hnover
      simp only [List.length_cons] at hnover ⊢
      omega

theorem len_set_of_peek_isSome (c : Cache V) (k : Nat) (v : V)
    (h : (c.peek k).isSome) : (c.set k v).len = c.len := by
  unfold Cache.set Cache.len
  rw [if_pos h]
  rw [isSome_peek, List.find?_isSome] at h
  obtain ⟨e, he, hpe⟩ := h
  have := List.length_eraseP_of_mem he hpe
  have hpos : 1 ≤ c.ll.length := List.length_pos_of_mem he
  simp only [List.length_cons, this]
  omega

theorem len_delete_of_peek_isSome (c : Cache V) (k : Nat)
    (h : (c.peek k).isSome) : (c.delete k).2.len + 1 = c.len := by
  unfold Cache.delete Cache.len
  rw [isSome_peek, List.find?_isSome] at h
  obtain ⟨e, he, hpe⟩ := h
  have := List.length_eraseP_of_mem he hpe
  have hpos : 1 ≤ c.ll.length := List.length_pos_of_mem he
  dsimp only
  omega

theorem len_delete_le (c : Cache V) (k : Nat) :
    (c.delete k).2.len ≤ c.len :=
  List.length_eraseP_le _

theorem len_deleteOldest_of_ne_nil (c : Cache V) (h : c.ll ≠ []) :
    (c.deleteOldest).2.len + 1 = c.len := by
  unfold Cache.deleteOldest Cache.len
  rw [List.getLast?_eq_getLast _ h]
  dsimp only
  have hpos : 0 < c.ll.length := List.length_pos_of_ne_nil h
  simp only [List.length_dropLast]
  omega

theorem capacity_set (c : Cache V) (k : Nat) (v : V) :
    (c.set k v).capacity = c.capacity := by
  unfold Cache.set
  split
  · rfl
  · dsimp only; split <;> rfl

theorem capacity_get (c : Cache V) (k : Nat) :
    (c.get k).2.capacity = c.capacity := by
  unfold Cache.get
  cases c.peek k <;> rfl

theorem capacity_delete (c : Cache V) (k : Nat) :
    (c.delete k).2.capacity = c.capacity := rfl

theorem capacity_deleteOldest (c : Cache V) :
    (c.deleteOldest).2.capacity = c.capacity := by
  unfold Cache.deleteOldest
  cases c.ll.getLast? <;> rfl

theorem capacity_deleteIf (c : Cache V) (p : Nat → V → Bool) :
    (c.deleteIf p).capacity = c.capacity := rfl

theorem len_get (c : Cache V) (k : Nat) : (c.get k).2.len = c.len := by
  unfold Cache.get
  cases hfind : c.peek k with
  | none => rfl
  | some v =>
    unfold Cache.len
    dsimp only
    unfold Cache.peek at hfind
    simp only [Option.map_eq_some'] at hfind
    obtain ⟨e, he, hev⟩ := hfind
    have hmem := List.mem_of_find?_eq_some he
    have hpe := List.find?_some he
    have := List.length_eraseP_of_mem hmem hpe
    have hpos : 1 ≤ c.ll.length := List.length_pos_of_mem hmem
    simp only [List.length_cons, this]
    omega

theorem len_deleteIf_le (c : Cache V) (p : Nat → V → Bool) :
    (c.deleteIf p).len ≤ c.len :=
  List.length_filter_le _ _

end Lru

namespace Tq

/-- The 2Q cache of the `tq` package: two LRU segments for recently and
frequently used entries plus the keys-only ghost list of recently evicted
keys. Fields mirror `tq.Cache`. -/
structure Cache where
  size : Int
  recentSize : Int
  recent : Lru.Cache Nat
  frequent : Lru.Cache Nat
  recentEvict : Lru.Cache Unit
  deriving Repr, DecidableEq

/-- `tq.New`. The Go code computes the sub-sizes as
`int(float64(size) * 0.5)`; for every nonnegative `size` below 2^53 (hence
every realizable capacity) this equals `size / 2`, which is how it is
embedded. -/
def new (size : Int) : Cache :=
  { size := size
    recentSize := size / 2
    recent := Lru.new Nat size
    frequent := Lru.new Nat size
    recentEvict := Lru.new Unit (size / 2) }

/-- `tq.Cache.Get`: serve from *frequent* (touching recency); otherwise
promote from *recent* into *frequent*; otherwise miss. -/
def Cache.get (c : Cache) (k : Nat) : Option Nat × Cache :=
  match c.frequent.get k with
  | (some v, freq) => (some v, { c with frequent := freq })
  | (none, _) =>
    match c.recent.peek k with
    | some v =>
      (some v,
        { c with
          recent := (c.recent.delete k).2
          frequent := c.frequent.set k v })
    | none => (none, c)

/-- `tq.Cache.ensureSpace`. -/
def Cache.ensureSpace (c : Cache) (recentEvict : Bool) : Cache :=
  let recentLen := c.recent.len
  let freqLen := c.frequent.len
  if (recentLen : Int) + (freqLen : Int) < c.size then c
  else if 0 < recentLen ∧
      ((c.recentSize < (recentLen : Int)) ∨
        ((recentLen : Int) = c.recentSize ∧ !recentEvict)) then
    match c.recent.deleteOldest with
    | (some e, rec) =>
      { c with recent := rec, recentEvict := c.recentEvict.set e.1 () }
    | (none, rec) => { c with recent := rec }
  else
    { c with frequent := (c.frequent.deleteOldest).2 }

/-- `tq.Cache.Set`: the four-way case split over *frequent*, *recent*,
*ghost* and fresh keys. -/
def Cache.set (c : Cache) (k : Nat) (v : Nat) : Cache :=
  if (c.frequent.peek k).isSome then
    { c with frequent := c.frequent.set k v }
  else if (c.recent.peek k).isSome then
    { c with
      recent := (c.recent.delete k).2
      frequent := c.frequent.set k v }
  else if (c.recentEvict.peek k).isSome then
    let c1 := c.ensureSpace true
    { c1 with
      recentEvict := (c1.recentEvict.delete k).2
      frequent := c1.frequent.set k v }
  else
    let c1 := c.ensureSpace false
    { c1 with recent := c1.recent.set k v }

/-- `tq.Cache.Delete`: try *frequent*, then *recent*, then the ghost list,
stopping at the first hit. -/
def Cache.delete (c : Cache) (k : Nat) : Cache :=
  match c.frequent.delete k with
  | (true, freq) => { c with frequent := freq }
  | (false, _) =>
    match c.recent.delete k with
    | (true, rec) => { c with recent := rec }
    | (false, _) =>
      match c.recentEvict.delete k with
      | (_, ghost) => { c with recentEvict := ghost }

/-- `tq.Cache.DeleteIf`: applied to *frequent* and *recent* only; the ghost
list is not scanned. -/
def Cache.deleteIf (c : Cache) (p : Nat → Nat → Bool) : Cache :=
  { c with
    frequent := c.frequent.deleteIf p
    recent := c.recent.deleteIf p }

/-- `tq.Cache.Purge`: flush all three sub-structures. -/
def Cache.purge (c : Cache) : Cache :=
  { c with
    frequent := c.frequent.purge
    recent := c.recent.purge
    recentEvict := c.recentEvict.purge }

end Tq

namespace Sc

/-! ## Backend operation sequences (for the capacity invariants) -/

/-- One operation of the uniform backend contract (`backend.go`). -/
inductive BOp where
  | get (k : Nat)
  | set (k v : Nat)
  | del (k : Nat)
  | delIf (p : Nat → Nat → Bool)
  | purge

def lruApply (c : Lru.Cache Nat) : BOp → Lru.Cache Nat
  | .get k => (c.get k).2
  | .set k v => c.set k v
  | .del k => (c.delete k).2
  | .delIf p => c.deleteIf p
  | .purge => c.purge

def lruRun (c : Lru.Cache Nat) (ops : List BOp) : Lru.Cache Nat :=
  ops.foldl lruApply c

def tqApply (c : Tq.Cache) : BOp → Tq.Cache
  | .get k => (c.get k).2
  | .set k v => c.set k v
  | .del k => c.delete k
  | .delIf p => c.deleteIf p
  | .purge => c.purge

def tqRun (c : Tq.Cache) (ops : List BOp) : Tq.Cache :=
  ops.foldl tqApply c

/-- Size/capacity invariant of an LRU backend. -/
def LruInv (C : Int) (c : Lru.Cache Nat) : Prop :=
  c.capacity = C ∧ (c.len : Int) ≤ C

theorem lruApply_inv {C : Int} {c : Lru.Cache Nat} (h : LruInv C c) (op : BOp) :
    LruInv C (lruApply c op) := by
  obtain ⟨hcap, hlen⟩ := h
  cases op with
  | get k =>
    exact ⟨by rw [lruApply, Lru.capacity_get, hcap],
      by rw [lruApply, Lru.len_get]; exact hlen⟩
  | set k v =>
    refine ⟨by rw [lruApply, Lru.capacity_set, hcap], ?_⟩
    have := Lru.len_set_le_cap c k v (by rw [hcap]; exact hlen)
    rw [hcap] at this
    exact this
  | del k =>
    refine ⟨by rw [lruApply, Lru.capacity_delete, hcap], ?_⟩
    have := Lru.len_delete_le c k
    simp only [lruApply]
    omega
  | delIf p =>
    refine ⟨by rw [lruApply, Lru.capacity_deleteIf, hcap], ?_⟩
    have := Lru.len_deleteIf_le c p
    simp only [lruApply]
    omega
  | purge =>
    exact ⟨hcap, by simp only [lruApply, Lru.Cache.purge, Lru.Cache.len,
      List.length_nil, Nat.cast_zero]; omega⟩

theorem lruRun_inv {C : Int} {c : Lru.Cache Nat} (h : LruInv C c)
    (ops : List BOp) : LruInv C (lruRun c ops) := by
  induction ops generalizing c with
  | nil => exact h
  | cons op ops ih => exact ih (lruApply_inv h op)

/-- Size/capacity invariant of a 2Q backend of capacity `C`. -/
def TqInv (C : Int) (c : Tq.Cache) : Prop :=
  c.size = C ∧ c.recentSize = C / 2 ∧
  c.recent.capacity = C ∧ c.frequent.capacity = C ∧
  c.recentEvict.capacity = C / 2 ∧
  (c.recent.len : Int) + (c.frequent.len : Int) ≤ C ∧
  (c.recentEvict.len : Int) ≤ C / 2

theorem tq_ensureSpace_inv {C : Int} (hC : 0 < C) {c : Tq.Cache} (b : Bool)
    (h : TqInv C c) :
    TqInv C (c.ensureSpace b) ∧
      ((c.ensureSpace b).recent.len : Int) + ((c.ensureSpace b).frequent.len : Int) < C := by
  obtain ⟨hsize, hrs, hrc, hfc, hgc, hsum, hg⟩ := h
  unfold Tq.Cache.ensureSpace
  by_cases hlt : ((c.recent.len : Int) + (c.frequent.len : Int) < c.size)
  · rw [if_pos hlt]
    rw [hsize] at hlt
    exact ⟨⟨hsize, hrs, hrc, hfc, hgc, hsum, hg⟩, hlt⟩
  · rw [if_neg hlt]
    rw [hsize] at hlt
    have hsumeq : (c.recent.len : Int) + (c.frequent.len : Int) = C := by (try dsimp only); omega
    by_cases hcond : (0 < c.recent.len ∧
        ((c.recentSize < (c.recent.len : Int)) ∨
          ((c.recent.len : Int) = c.recentSize ∧ !b)))
    · rw [if_pos hcond]
      have hne : c.recent.ll ≠ [] := by
        intro hnil
        have : c.recent.len = 0 := by
          unfold Lru.Cache.len
          rw [hnil]
          rfl
        omega
      have hdel := Lru.len_deleteOldest_of_ne_nil c.recent hne
      have hdelcap := Lru.capacity_deleteOldest c.recent
      rcases hsubst : c.recent.deleteOldest with ⟨eo, rec⟩
      rw [hsubst] at hdel hdelcap
      cases eo with
      | none =>
        dsimp only
        have : (rec.len : Int) + (c.frequent.len : Int) = C - 1 := by
          simp only at hdel
          omega
        refine ⟨⟨hsize, hrs, hdelcap.trans hrc, hfc, hgc, by (try dsimp only); omega, hg⟩, by (try dsimp only); omega⟩
      | some e =>
        dsimp only
        have hglen := Lru.len_set_le_cap c.recentEvict e.1 () (by rw [hgc]; exact hg)
        rw [hgc] at hglen
        have hgcap := Lru.capacity_set c.recentEvict e.1 ()
        have : (rec.len : Int) + (c.frequent.len : Int) = C - 1 := by
          simp only at hdel
          omega
        refine ⟨⟨hsize, hrs, hdelcap.trans hrc, hfc, by rw [hgcap, hgc],
          by (try dsimp only); omega, by (try dsimp only); exact hglen⟩, by (try dsimp only); omega⟩
    · rw [if_neg hcond]
      have hfpos : 0 < c.frequent.len := by
        by_contra hf0
        have hf0' : c.frequent.len = 0 := by (try dsimp only); omega
        have hrpos : (c.recent.len : Int) = C := by
          rw [hf0'] at hsumeq
          simpa using hsumeq
        apply hcond
        constructor
        · omega
        · left
          rw [hrs, hrpos]
          omega
      have hne : c.frequent.ll ≠ [] := by
        intro hnil
        have : c.frequent.len = 0 := by
          unfold Lru.Cache.len
          rw [hnil]
          rfl
        omega
      have hdel := Lru.len_deleteOldest_of_ne_nil c.frequent hne
      have hdelcap := Lru.capacity_deleteOldest c.frequent
      dsimp only
      refine ⟨⟨hsize, hrs, hrc, by rw [hdelcap, hfc], hgc, by (try dsimp only); omega, hg⟩, by (try dsimp only); omega⟩

theorem tqApply_inv {C : Int} (hC : 0 < C) {c : Tq.Cache} (h : TqInv C c)
    (op : BOp) : TqInv C (tqApply c op) := by
  obtain ⟨hsize, hrs, hrc, hfc, hgc, hsum, hg⟩ := h
  cases op with
  | get k =>
    simp only [tqApply]
    unfold Tq.Cache.get
    rcases hget : c.frequent.get k with ⟨vo, freq⟩
    have hflen := Lru.len_get c.frequent k
    have hfcap := Lru.capacity_get c.frequent k
    rw [hget] at hflen hfcap
    dsimp only at hflen hfcap
    cases vo with
    | some v =>
      dsimp only
      exact ⟨hsize, hrs, hrc, by rw [hfcap, hfc], hgc, by (try dsimp only); omega, hg⟩
    | none =>
      dsimp only
      cases hpeek : c.recent.peek k with
      | none => exact ⟨hsize, hrs, hrc, hfc, hgc, hsum, hg⟩
      | some v =>
        dsimp only
        have hdl := Lru.len_delete_of_peek_isSome c.recent k (by rw [hpeek]; rfl)
        have hdc := Lru.capacity_delete c.recent k
        have hsl := Lru.len_set_le_succ c.frequent k v
        have hsc := Lru.capacity_set c.frequent k v
        exact ⟨hsize, hrs, by rw [hdc, hrc], by rw [hsc, hfc], hgc, by (try dsimp only); omega, hg⟩
  | set k v =>
    simp only [tqApply]
    unfold Tq.Cache.set
    by_cases h1 : (c.frequent.peek k).isSome
    · rw [if_pos h1]
      have := Lru.len_set_of_peek_isSome c.frequent k v h1
      have hsc := Lru.capacity_set c.frequent k v
      exact ⟨hsize, hrs, hrc, by rw [hsc, hfc], hgc, by (try dsimp only); omega, hg⟩
    · rw [if_neg h1]
      by_cases h2 : (c.recent.peek k).isSome
      · rw [if_pos h2]
        have hdl := Lru.len_delete_of_peek_isSome c.recent k h2
        have hdc := Lru.capacity_delete c.recent k
        have hsl := Lru.len_set_le_succ c.frequent k v
        have hsc := Lru.capacity_set c.frequent k v
        exact ⟨hsize, hrs, by rw [hdc, hrc], by rw [hsc, hfc], hgc, by (try dsimp only); omega, hg⟩
      · rw [if_neg h2]
        by_cases h3 : (c.recentEvict.peek k).isSome
        · rw [if_pos h3]
          obtain ⟨⟨hsize1, hrs1, hrc1, hfc1, hgc1, hsum1, hg1⟩, hlt1⟩ :=
            tq_ensureSpace_inv hC true ⟨hsize, hrs, hrc, hfc, hgc, hsum, hg⟩
          dsimp only
          have hgd := Lru.len_delete_le (c.ensureSpace true).recentEvict k
          have hgdc := Lru.capacity_delete (c.ensureSpace true).recentEvict k
          have hsl := Lru.len_set_le_succ (c.ensureSpace true).frequent k v
          have hsc := Lru.capacity_set (c.ensureSpace true).frequent k v
          exact ⟨hsize1, hrs1, hrc1, by rw [hsc, hfc1], by rw [hgdc, hgc1],
            by (try dsimp only); omega, by (try dsimp only); omega⟩
        · rw [if_neg h3]
          obtain ⟨⟨hsize1, hrs1, hrc1, hfc1, hgc1, hsum1, hg1⟩, hlt1⟩ :=
            tq_ensureSpace_inv hC false ⟨hsize, hrs, hrc, hfc, hgc, hsum, hg⟩
          dsimp only
          have hsl := Lru.len_set_le_succ (c.ensureSpace false).recent k v
          have hsc := Lru.capacity_set (c.ensureSpace false).recent k v
          exact ⟨hsize1, hrs1, by rw [hsc, hrc1], hfc1, hgc1, by (try dsimp only); omega, hg1⟩
  | del k =>
    simp only [tqApply]
    unfold Tq.Cache.delete
    rcases hfd : c.frequent.delete k with ⟨okf, freq⟩
    have hfl := Lru.len_delete_le c.frequent k
    have hfcap := Lru.capacity_delete c.frequent k
    rw [hfd] at hfl hfcap
    dsimp only at hfl hfcap
    cases okf with
    | true =>
      dsimp only
      exact ⟨hsize, hrs, hrc, by rw [hfcap, hfc], hgc, by (try dsimp only); omega, hg⟩
    | false =>
      dsimp only
      rcases hrd : c.recent.delete k with ⟨okr, rec⟩
      have hrl := Lru.len_delete_le c.recent k
      have hrcap := Lru.capacity_delete c.recent k
      rw [hrd] at hrl hrcap
      dsimp only at hrl hrcap
      cases okr with
      | true =>
        dsimp only
        exact ⟨hsize, hrs, by rw [hrcap, hrc], hfc, hgc, by (try dsimp only); omega, hg⟩
      | false =>
        dsimp only
        rcases hgd : c.recentEvict.delete k with ⟨okg, ghost⟩
        have hgl := Lru.len_delete_le c.recentEvict k
        have hgcap := Lru.capacity_delete c.recentEvict k
        rw [hgd] at hgl hgcap
        dsimp only at hgl hgcap
        dsimp only
        exact ⟨hsize, hrs, hrc, hfc, by rw [hgcap, hgc], hsum, by (try dsimp only); omega⟩
  | delIf p =>
    simp only [tqApply]
    have hfl := Lru.len_deleteIf_le c.frequent p
    have hrl := Lru.len_deleteIf_le c.recent p
    exact ⟨hsize, hrs,
      by rw [Tq.Cache.deleteIf]; exact (Lru.capacity_deleteIf c.recent p).trans hrc,
      by rw [Tq.Cache.deleteIf]; exact (Lru.capacity_deleteIf c.frequent p).trans hfc,
      hgc, by simp only [Tq.Cache.deleteIf]; omega, hg⟩
  | purge =>
    refine ⟨hsize, hrs, hrc, hfc, hgc, ?_, ?_⟩ <;>
      simp only [tqApply, Tq.Cache.purge, Lru.Cache.purge, Lru.Cache.len,
        List.length_nil, Nat.cast_zero] <;> omega

theorem tqRun_inv {C : Int} (hC : 0 < C) {c : Tq.Cache} (h : TqInv C c)
    (ops : List BOp) : TqInv C (tqRun c ops) := by
  induction ops generalizing c with
  | nil => exact h
  | cons op ops ih => exact ih (tqApply_inv hC h op)

theorem lruInv_new (C : Int) (hC : 0 < C) : LruInv C (Lru.new Nat C) :=
  ⟨rfl, by simp [Lru.new, Lru.Cache.len]; omega⟩

theorem tqInv_new (C : Int) (hC : 0 < C) : TqInv C (Tq.new C) := by
  refine ⟨rfl, rfl, rfl, rfl, rfl, ?_, ?_⟩ <;>
    simp [Tq.new, Lru.new, Lru.Cache.len] <;> omega

/-- C6: for the LRU backend and the 2Q backend constructed with any
capacity `C > 0`, after every sequence of Get/Set/Delete/DeleteIf/Purge
operations the LRU holds at most `C` entries, and the 2Q satisfies
`|recent| + |frequent| ≤ C` and `|ghost| ≤ ⌊C/2⌋`. -/
theorem backend_capacity_invariant (C : Int) (hC : 0 < C) (ops : List BOp) :
    ((lruRun (Lru.new Nat C) ops).len : Int) ≤ C ∧
    ((tqRun (Tq.new C) ops).recent.len : Int) +
      ((tqRun (Tq.new C) ops).frequent.len : Int) ≤ C ∧
    ((tqRun (Tq.new C) ops).recentEvict.len : Int) ≤ C / 2 := by
  obtain ⟨-, hlru⟩ := lruRun_inv (lruInv_new C hC) ops
  obtain ⟨-, -, -, -, -, hsum, hg⟩ := tqRun_inv hC (tqInv_new C hC) ops
  exact ⟨hlru, hsum, hg⟩

/-- Witness for `backend_capacity_invariant` at capacity 3 and a concrete
operation sequence that forces evictions and a ghost entry. -/
theorem backend_capacity_invariant_witness :
    (0 : Int) < 3 ∧
    (((lruRun (Lru.new Nat 3) [BOp.set 1 1, BOp.set 2 2, BOp.set 3 3,
        BOp.set 4 4, BOp.get 2]).len : Int) ≤ 3 ∧
    ((tqRun (Tq.new 3) [BOp.set 1 1, BOp.set 2 2, BOp.set 3 3,
        BOp.set 4 4, BOp.get 2]).recent.len : Int) +
      ((tqRun (Tq.new 3) [BOp.set 1 1, BOp.set 2 2, BOp.set 3 3,
        BOp.set 4 4, BOp.get 2]).frequent.len : Int) ≤ 3 ∧
    ((tqRun (Tq.new 3) [BOp.set 1 1, BOp.set 2 2, BOp.set 3 3,
        BOp.set 4 4, BOp.get 2]).recentEvict.len : Int) ≤ 3 / 2) :=
  ⟨by decide, backend_capacity_invariant 3 (by decide)
    [BOp.set 1 1, BOp.set 2 2, BOp.set 3 3, BOp.set 4 4, BOp.get 2]⟩

/-! ## C7: the 2Q case split, checked against a spec-side transcription -/

/-- Modelled from the spec (§4.2, 2Q `ensure_space`): if there is room do
nothing; else if the recent buffer is past (or at, when not a
recent-evict) its target size, evict the oldest recent entry and push its
key into the ghost list; else evict the oldest frequent entry. -/
def specEnsureSpace (c : Tq.Cache) (recentEvict : Bool) : Tq.Cache :=
  if ((c.recent.len : Int) + (c.frequent.len : Int)) < c.size then c
  else if 0 < c.recent.len ∧
      (c.recentSize < (c.recent.len : Int) ∨
        ((c.recent.len : Int) = c.recentSize ∧ recentEvict = false)) then
    match c.recent.deleteOldest with
    | (some e, rec) =>
      { c with recent := rec, recentEvict := c.recentEvict.set e.1 () }
    | (none, rec) => { c with recent := rec }
  else
    { c with frequent := (c.frequent.deleteOldest).2 }

/-- Modelled from the spec (§4.2, 2Q `set` rules 1-4). -/
def specSet (c : Tq.Cache) (k v : Nat) : Tq.Cache :=
  if (c.frequent.peek k).isSome then
    -- rule 1: in *frequent*: update the value there (touches recency)
    { c with frequent := c.frequent.set k v }
  else if (c.recent.peek k).isSome then
    -- rule 2: in *recent*: remove from *recent*, insert into *frequent*
    { c with
      recent := (c.recent.delete k).2
      frequent := c.frequent.set k v }
  else if (c.recentEvict.peek k).isSome then
    -- rule 3: in *ghost*: ensure_space(recent_evict=true), remove from
    -- *ghost*, insert into *frequent*
    let c1 := specEnsureSpace c true
    { c1 with
      recentEvict := (c1.recentEvict.delete k).2
      frequent := c1.frequent.set k v }
  else
    -- rule 4: ensure_space(recent_evict=false), insert into *recent*
    let c1 := specEnsureSpace c false
    { c1 with recent := c1.recent.set k v }

/-- Modelled from the spec (§4.2): `get(K)` returns from *frequent*
(touching recency) if present; otherwise promotes from *recent* into
*frequent*; otherwise misses. The ghost list is not consulted. -/
def specGet (c : Tq.Cache) (k : Nat) : Option Nat × Tq.Cache :=
  match c.frequent.get k with
  | (some v, freq) => (some v, { c with frequent := freq })
  | (none, _) =>
    match c.recent.peek k with
    | some v =>
      (some v,
        { c with
          recent := (c.recent.delete k).2
          frequent := c.frequent.set k v })
    | none => (none, c)

/-- C7: the 2Q backend's `Set` follows exactly the spec's four-way case
split and `Get` the spec's lookup/promotion rule; `Get` neither reads nor
writes the ghost list (its result is unchanged under any replacement of
the ghost list, and the ghost list is unchanged by it). -/
theorem tq_set_get_follow_spec :
    (∀ (c : Tq.Cache) (k v : Nat), c.set k v = specSet c k v) ∧
    (∀ (c : Tq.Cache) (k : Nat), c.get k = specGet c k) ∧
    (∀ (c : Tq.Cache) (g : Lru.Cache Unit) (k : Nat),
      (({ c with recentEvict := g } : Tq.Cache).get k).1 = (c.get k).1 ∧
      (c.get k).2.recentEvict = c.recentEvict) := by
  refine ⟨?_, ?_, ?_⟩
  · intro c k v
    unfold Tq.Cache.set specSet Tq.Cache.ensureSpace specEnsureSpace
    simp only [Bool.not_eq_true', eq_iff_iff]
  · intro c k
    rfl
  · intro c g k
    constructor
    · unfold Tq.Cache.get
      rcases c.frequent.get k with ⟨vo, freq⟩
      cases vo
      · dsimp only
        cases c.recent.peek k <;> rfl
      · rfl
    · unfold Tq.Cache.get
      rcases c.frequent.get k with ⟨vo, freq⟩
      cases vo
      · dsimp only
        cases c.recent.peek k <;> rfl
      · rfl



/-! ## C2: freshness classification -/

/-- C2: a record is fresh iff `now < created + freshFor`, expired iff
`created + ttl < now`, stale iff neither; with `freshFor = 0` a record is
non-fresh at every reading `now ≥ created`, and with `ttl = 0` it is
expired exactly at every reading strictly after `created`. -/
theorem freshness_classification :
    (∀ (val : Val) (now freshFor : Int),
      val.isFresh now freshFor = true ↔ now < val.created + freshFor) ∧
    (∀ (val : Val) (now ttl : Int),
      val.isExpired now ttl = true ↔ val.created + ttl < now) ∧
    (∀ (val : Val) (now freshFor ttl : Int),
      val.isStale now freshFor ttl = true ↔
        (val.isFresh now freshFor = false ∧ val.isExpired now ttl = false)) ∧
    (∀ (val : Val) (now : Int), val.created ≤ now →
      val.isFresh now 0 = false) ∧
    (∀ (val : Val) (now : Int),
      val.isExpired now 0 = true ↔ val.created < now) := by
  refine ⟨?_, ?_, ?_, ?_, ?_⟩
  · intro val now freshFor
    simp [Val.isFresh]
  · intro val now ttl
    simp [Val.isExpired]
  · intro val now freshFor ttl
    simp [Val.isStale]
  · intro val now h
    simp only [Val.isFresh, decide_eq_false_iff_not, not_lt]
    simpa using h
  · intro val now
    simp [Val.isExpired]

/-- Witness for `freshness_classification`: its only hypothesis
(`created ≤ now` in the `freshFor = 0` clause) holds at `created = 0`,
`now = 5`. -/
theorem freshness_classification_witness :
    (0 : Int) ≤ 5 ∧ (Val.mk 7 0).isFresh 5 0 = false :=
  ⟨by decide, freshness_classification.2.2.2.1 (Val.mk 7 0) 5 (by decide)⟩

/-! ## C8: construction validation (`New` in cache.go, config.go) -/

/-- The backend selector constants of config.go (a Go `int`-typed enum:
`cacheBackendMap`, `cacheBackendLRU`, `cacheBackend2Q` via iota). -/
def cacheBackendMap : Int := 0

def cacheBackendLRU : Int := 1

def cacheBackend2Q : Int := 2

/-- The configuration assembled by `defaultConfig` plus the applied
`CacheOption`s (config.go). `cleanupInterval` only controls whether a
cleaner goroutine is started and cannot fail construction. -/
structure CacheConfig where
  enableStrictCoalescing : Bool
  backend : Int
  capacity : Int
  cleanupInterval : Int
  deriving Repr, DecidableEq

/-- The data of a successfully constructed cache instance relevant to
validation (`New` returns `*Cache[K, V]`). -/
structure NewResult where
  backend : Int
  capacity : Int
  freshFor : Int
  ttl : Int
  strictCoalescing : Bool
  deriving Repr, DecidableEq

/-- `New` (cache.go): validation and backend selection. `replaceFnIsNil`
stands for `replaceFn == nil`. -/
def scNew (replaceFnIsNil : Bool) (freshFor ttl : Int) (config : CacheConfig) :
    Except String NewResult :=
  if replaceFnIsNil then .error "replaceFn cannot be nil"
  else if freshFor < 0 ∨ ttl < 0 then
    .error "freshFor and ttl needs to be non-negative"
  else if ttl < freshFor then .error "freshFor cannot be longer than ttl"
  else if config.backend = cacheBackendMap then
    if config.capacity < 0 then
      .error "capacity needs to be non-negative for map cache"
    else .ok ⟨config.backend, config.capacity, freshFor, ttl,
      config.enableStrictCoalescing⟩
  else if config.backend = cacheBackendLRU then
    if config.capacity ≤ 0 then
      .error "capacity needs to be greater than 0 for LRU cache"
    else .ok ⟨config.backend, config.capacity, freshFor, ttl,
      config.enableStrictCoalescing⟩
  else if config.backend = cacheBackend2Q then
    if config.capacity ≤ 0 then
      .error "capacity needs to be greater than 0 for 2Q cache"
    else .ok ⟨config.backend, config.capacity, freshFor, ttl,
      config.enableStrictCoalescing⟩
  else .error "unknown cache backend"

/-- C8: construction succeeds exactly when the loader is non-nil, the
durations are nonnegative with `freshFor ≤ ttl`, and the selected backend's
capacity constraint holds (map: `≥ 0`; LRU and 2Q: `> 0`); any other
selector value fails. -/
theorem new_validation (replaceFnIsNil : Bool) (freshFor ttl : Int)
    (config : CacheConfig) :
    (scNew replaceFnIsNil freshFor ttl config).isOk = true ↔
      (replaceFnIsNil = false ∧ 0 ≤ freshFor ∧ 0 ≤ ttl ∧ freshFor ≤ ttl ∧
        ((config.backend = cacheBackendMap ∧ 0 ≤ config.capacity) ∨
          (config.backend = cacheBackendLRU ∧ 0 < config.capacity) ∨
          (config.backend = cacheBackend2Q ∧ 0 < config.capacity))) := by
  unfold scNew
  cases replaceFnIsNil
  · by_cases hneg : freshFor < 0 ∨ ttl < 0
    · simp only [if_neg Bool.false_ne_true, if_pos hneg]
      simp [Except.isOk, Except.toBool]
      omega
    · simp only [if_neg Bool.false_ne_true, if_neg hneg]
      by_cases hft : ttl < freshFor
      · simp only [if_pos hft]
        simp [Except.isOk, Except.toBool]
        omega
      · simp only [if_neg hft]
        by_cases hmap : config.backend = cacheBackendMap
        · simp only [if_pos hmap]
          by_cases hcap : config.capacity < 0
          · simp only [if_pos hcap]
            simp [Except.isOk, Except.toBool, hmap, cacheBackendMap,
              cacheBackendLRU, cacheBackend2Q]
            omega
          · simp only [if_neg hcap]
            simp [Except.isOk, Except.toBool, hmap, cacheBackendMap,
              cacheBackendLRU, cacheBackend2Q]
            omega
        · simp only [if_neg hmap]
          by_cases hlru : config.backend = cacheBackendLRU
          · simp only [if_pos hlru]
            by_cases hcap : config.capacity ≤ 0
            · simp only [if_pos hcap]
              simp [Except.isOk, Except.toBool, hlru, cacheBackendMap,
                cacheBackendLRU, cacheBackend2Q]
              omega
            · simp only [if_neg hcap]
              simp [Except.isOk, Except.toBool, hlru, hmap, cacheBackendMap,
                cacheBackendLRU, cacheBackend2Q]
              omega
          · simp only [if_neg hlru]
            by_cases h2q : config.backend = cacheBackend2Q
            · simp only [if_pos h2q]
              by_cases hcap : config.capacity ≤ 0
              · simp only [if_pos hcap]
                simp [Except.isOk, Except.toBool, h2q, cacheBackendMap,
                  cacheBackendLRU, cacheBackend2Q]
                omega
              · simp only [if_neg hcap]
                simp [Except.isOk, Except.toBool, h2q, hmap, hlru,
                  cacheBackendMap, cacheBackendLRU, cacheBackend2Q]
                omega
            · simp only [if_neg h2q]
              simp [Except.isOk, Except.toBool, hmap, hlru, h2q]
  · simp [Except.isOk, Except.toBool]


/-! ## The cache core (cache.go): small-step interleaving semantics

Each mutex-protected section of the Go code is one atomic step; the loader
runs between its `startTask` and `finishTask` steps. Keys, values and
error payloads are `Nat`; `none` is the nil error. -/

/-- An in-flight or completed replacement call (`call[V]` in call.go),
together with its `val.created` timestamp which `set` assigns just before
invoking the loader. `started` records whether that assignment happened. -/
structure CallRec where
  started : Bool
  created : Int
  v : Nat
  err : Option Nat
  done : Bool
  deriving Repr, DecidableEq

/-- Program counter of one `Get` caller. `t0` is its pre-lock `calledAt`
sample. `done` stores the returned value/error, the `created` stamp of the
record it served, and the call id it waited on (if any). -/
inductive Phase where
  | classify (t0 : Int)
  | retry (t0 : Int) (val : Val)
  | waiting (t0 : Int) (cid : Nat)
  | loading (t0 : Int) (cid : Nat)
  | done (t0 : Int) (v : Nat) (err : Option Nat) (created : Int) (src : Option Nat)
  deriving Repr, DecidableEq

/-- One `Get` caller: its key, program counter, and how many of the
`Hits`/`GraceHits`/`Misses` counter increments it has performed. -/
structure GetThread where
  key : Nat
  phase : Phase
  ticks : Nat
  deriving Repr, DecidableEq

/-- Phase of one `c.set(ctx, cl, key)` execution: not yet at the
`created := now` line, loader in flight, or returned (bookkeeping done). -/
inductive TaskPhase where
  | notStarted
  | running
  | finished
  deriving Repr, DecidableEq

/-- One `c.set` execution (synchronous or background goroutine). -/
structure SetTask where
  key : Nat
  cid : Nat
  phase : TaskPhase
  deriving Repr, DecidableEq

/-- The `HitStats` counters. -/
structure HS where
  hits : Nat
  graceHits : Nat
  misses : Nat
  replacements : Nat
  deriving Repr, DecidableEq

/-- The whole interleaved system: clock, backend contents (`c.values`,
map backend), in-flight table (`c.calls`), arena of call records
(call ids index it), live `Get` threads, `set` executions, counters. -/
structure CState where
  now : Int
  values : List (Nat × Val)
  callsTable : List (Nat × Nat)
  calls : List CallRec
  gets : List GetThread
  tasks : List SetTask
  stats : HS
  deriving Repr, DecidableEq

/-- Per-instance configuration fixed by `New`. -/
structure Cfg where
  freshFor : Int
  ttl : Int
  strict : Bool
  deriving Repr, DecidableEq

/-- Association-list lookup (Go map read). -/
def alookup (k : Nat) (l : List (Nat × α)) : Option α :=
  (l.find? (fun e => e.1 = k)).map Prod.snd

/-- Association-list removal (Go map delete). -/
def aerase (k : Nat) (l : List (Nat × α)) : List (Nat × α) :=
  l.filter (fun e => !(e.1 = k : Bool))

/-- Association-list insert-or-replace (Go map write). -/
def aupsert (k : Nat) (v : α) (l : List (Nat × α)) : List (Nat × α) :=
  (k, v) :: aerase k l

/-- A fresh `CallRec` as allocated by `&call[V]{}`. -/
def freshCall : CallRec := ⟨false, 0, 0, none, false⟩

/-- The miss tail of `Get` (after the `c.stats.Misses++` line): wait on an
existing in-flight call, or install a new call and run `c.set`
synchronously. -/
def missStep (st : CState) (tid : Nat) (key : Nat) (t0 : Int) (ticks : Nat) :
    CState :=
  match alookup key st.callsTable with
  | some cid =>
    { st with
      gets := st.gets.set tid ⟨key, .waiting t0 cid, ticks + 1⟩
      stats := { st.stats with misses := st.stats.misses + 1 } }
  | none =>
    let cid := st.calls.length
    { st with
      calls := st.calls ++ [freshCall]
      callsTable := aupsert key cid st.callsTable
      tasks := st.tasks ++ [⟨key, cid, .notStarted⟩]
      gets := st.gets.set tid ⟨key, .loading t0 cid, ticks + 1⟩
      stats := { st.stats with misses := st.stats.misses + 1 } }

/-- The classification body of `Get` from the `retry:` label: fresh hit,
stale grace hit (spawning a background refresh if no call is in flight),
or the miss path. `valOpt` is the record under consideration (`val, ok`):
the backend read for a first pass, the awaited call result on a strict
retry pass. -/
def classifyCore (cfg : Cfg) (st : CState) (tid : Nat) (key : Nat) (t0 : Int)
    (ticks : Nat) (valOpt : Option Val) : CState :=
  match valOpt with
  | some val =>
    if val.isFresh t0 cfg.freshFor then
      { st with
        gets := st.gets.set tid ⟨key, .done t0 val.v none val.created none, ticks + 1⟩
        stats := { st.stats with hits := st.stats.hits + 1 } }
    else if !val.isExpired t0 cfg.ttl then
      match alookup key st.callsTable with
      | some _ =>
        { st with
          gets := st.gets.set tid ⟨key, .done t0 val.v none val.created none, ticks + 1⟩
          stats := { st.stats with graceHits := st.stats.graceHits + 1 } }
      | none =>
        let cid := st.calls.length
        { st with
          calls := st.calls ++ [freshCall]
          callsTable := aupsert key cid st.callsTable
          tasks := st.tasks ++ [⟨key, cid, .notStarted⟩]
          gets := st.gets.set tid ⟨key, .done t0 val.v none val.created none, ticks + 1⟩
          stats := { st.stats with graceHits := st.stats.graceHits + 1 } }
    else
      missStep st tid key t0 ticks
  | none => missStep st tid key t0 ticks

/-- Run the next atomic section of `Get` thread `tid`: the locked
classification, waking from `cl.wg.Wait()` (strict retry or direct
return), or the leader collecting its synchronous `set` result. A thread
waiting on an unfinished call cannot step. -/
def stepGet (cfg : Cfg) (st : CState) (tid : Nat) : CState :=
  match st.gets.get? tid with
  | none => st
  | some g =>
    match g.phase with
    | .classify t0 => classifyCore cfg st tid g.key t0 g.ticks (alookup g.key st.values)
    | .retry t0 val => classifyCore cfg st tid g.key t0 g.ticks (some val)
    | .waiting t0 cid =>
      match st.calls.get? cid with
      | none => st
      | some rec =>
        if rec.done then
          if cfg.strict ∧ rec.err = none then
            let g1 : GetThread := ⟨g.key, .retry t0 ⟨rec.v, rec.created⟩, g.ticks⟩
            { st with gets := st.gets.set tid g1 }
          else
            let g1 : GetThread := ⟨g.key, .done t0 rec.v rec.err rec.created (some cid), g.ticks⟩
            { st with gets := st.gets.set tid g1 }
        else st
    | .loading t0 cid =>
      match st.calls.get? cid with
      | none => st
      | some rec =>
        if rec.done then
          let g1 : GetThread := ⟨g.key, .done t0 rec.v rec.err rec.created (some cid), g.ticks⟩
          { st with gets := st.gets.set tid g1 }
        else st
    | .done _ _ _ _ _ => st

/-- First line of `c.set`: `cl.val.created = monoTimeNow()`; the loader
invocation becomes in flight. -/
def startTask (st : CState) (i : Nat) : CState :=
  match st.tasks.get? i with
  | none => st
  | some t =>
    match t.phase with
    | .notStarted =>
      match st.calls.get? t.cid with
      | none => st
      | some rec =>
        { st with
          tasks := st.tasks.set i ⟨t.key, t.cid, .running⟩
          calls := st.calls.set t.cid { rec with started := true, created := st.now } }
    | _ => st

/-- The loader returns `(v, err)` and `c.set` runs its locked bookkeeping:
`Replacements++`; if the in-flight slot still holds this call, write the
record through on success and remove the slot; release the latch. -/
def finishTask (st : CState) (i : Nat) (v : Nat) (err : Option Nat) : CState :=
  match st.tasks.get? i with
  | none => st
  | some t =>
    match t.phase with
    | .running =>
      match st.calls.get? t.cid with
      | none => st
      | some rec =>
        let st1 : CState :=
          { st with
            calls := st.calls.set t.cid { rec with v := v, err := err, done := true }
            tasks := st.tasks.set i ⟨t.key, t.cid, .finished⟩
            stats := { st.stats with replacements := st.stats.replacements + 1 } }
        if alookup t.key st.callsTable = some t.cid then
          { st1 with
            callsTable := aerase t.key st1.callsTable
            values :=
              if err = none then aupsert t.key ⟨v, rec.created⟩ st1.values
              else st1.values }
        else st1
    | _ => st

/-- `GetIfExists` (one locked section; `calledAt` is the current clock).
Returns `(value, present)` and the updated state. -/
def getIfExists (cfg : Cfg) (st : CState) (key : Nat) : Nat × Bool × CState :=
  let calledAt := st.now
  match alookup key st.values with
  | some val =>
    if !val.isExpired calledAt cfg.ttl then
      if val.isFresh calledAt cfg.freshFor then
        (val.v, true, { st with stats := { st.stats with hits := st.stats.hits + 1 } })
      else
        (val.v, true, { st with stats := { st.stats with graceHits := st.stats.graceHits + 1 } })
    else
      (val.v, false, { st with stats := { st.stats with misses := st.stats.misses + 1 } })
  | none =>
    (0, false, { st with stats := { st.stats with misses := st.stats.misses + 1 } })

/-- One scheduling choice of the interleaved system. `tick` advances the
monotonic clock; `finishTask` carries the loader's chosen result. -/
inductive Act where
  | tick (d : Nat)
  | spawnGet (key : Nat)
  | stepGet (tid : Nat)
  | startTask (i : Nat)
  | finishTask (i : Nat) (v : Nat) (err : Option Nat)
  | forget (key : Nat)
  | purge
  deriving Repr, DecidableEq

/-- `Forget`: drop the in-flight slot and the stored record. -/
def forgetKey (st : CState) (key : Nat) : CState :=
  { st with
    callsTable := aerase key st.callsTable
    values := aerase key st.values }

/-- `Purge`: drop all in-flight slots and all stored records. -/
def purgeAll (st : CState) : CState :=
  { st with callsTable := [], values := [] }

def step (cfg : Cfg) (st : CState) : Act → CState
  | .tick d => { st with now := st.now + d }
  | .spawnGet key => { st with gets := st.gets ++ [⟨key, .classify st.now, 0⟩] }
  | .stepGet tid => stepGet cfg st tid
  | .startTask i => startTask st i
  | .finishTask i v err => finishTask st i v err
  | .forget key => forgetKey st key
  | .purge => purgeAll st

/-- The empty cache produced by `New`. -/
def init : CState := ⟨0, [], [], [], [], [], ⟨0, 0, 0, 0⟩⟩

/-- Execute a schedule from the freshly constructed cache. -/
def run (cfg : Cfg) (acts : List Act) : CState :=
  acts.foldl (step cfg) init


/-! ## Association list and list-indexing helper lemmas -/

theorem alookup_nil (k : Nat) : alookup k ([] : List (Nat × α)) = none := rfl

theorem alookup_cons_self (k : Nat) (v : α) (l : List (Nat × α)) :
    alookup k ((k, v) :: l) = some v := by
  unfold alookup
  rw [List.find?_cons_of_pos]
  · rfl
  · simp

theorem alookup_cons_ne (k k' : Nat) (hne : k' ≠ k) (v : α) (l : List (Nat × α)) :
    alookup k ((k', v) :: l) = alookup k l := by
  unfold alookup
  rw [List.find?_cons_of_neg]
  simp [hne]

theorem aerase_cons (k : Nat) (e : Nat × α) (l : List (Nat × α)) :
    aerase k (e :: l) = if e.1 = k then aerase k l else e :: aerase k l := by
  unfold aerase
  rw [List.filter_cons]
  by_cases h : e.1 = k
  · simp [h]
  · simp [h]

theorem aerase_nil (k : Nat) : aerase k ([] : List (Nat × α)) = [] := rfl

theorem aerase_cons_self (k : Nat) (v : α) (l : List (Nat × α)) :
    aerase k ((k, v) :: l) = aerase k l := by
  rw [aerase_cons]
  simp

theorem alookup_aerase_self (k : Nat) (l : List (Nat × α)) :
    alookup k (aerase k l) = none := by
  have hfind : (aerase k l).find? (fun e => e.1 = k) = none := by
    refine List.find?_eq_none.mpr ?_
    intro e he
    have h2 := (List.mem_filter.mp he).2
    simp only [Bool.not_eq_true', decide_eq_false_iff_not] at h2
    simpa using h2
  unfold alookup
  rw [hfind]
  rfl

theorem alookup_aerase_ne (k k' : Nat) (hne : k ≠ k') (l : List (Nat × α)) :
    alookup k (aerase k' l) = alookup k l := by
  induction l with
  | nil => rfl
  | cons e l ih =>
    rcases e with ⟨e1, e2⟩
    rw [aerase_cons]
    by_cases he : e1 = k'
    · rw [if_pos he]
      subst he
      rw [ih, alookup_cons_ne k e1 (fun h => hne h.symm)]
    · rw [if_neg he]
      by_cases h1 : e1 = k
      · subst h1
        rw [alookup_cons_self, alookup_cons_self]
      · rw [alookup_cons_ne k e1 h1, alookup_cons_ne k e1 h1, ih]

theorem alookup_aupsert_self (k : Nat) (v : α) (l : List (Nat × α)) :
    alookup k (aupsert k v l) = some v := alookup_cons_self k v _

theorem alookup_aupsert_ne (k k' : Nat) (hne : k ≠ k') (v : α) (l : List (Nat × α)) :
    alookup k (aupsert k' v l) = alookup k l := by
  unfold aupsert
  rw [alookup_cons_ne k k' (Ne.symm hne), alookup_aerase_ne k k' hne]

theorem get?_concat_length (l : List α) (x : α) : (l ++ [x]).get? l.length = some x := by
  induction l with
  | nil => rfl
  | cons a l ih => simpa using ih

theorem run_concat (cfg : Cfg) (acts : List Act) (a : Act) :
    run cfg (acts ++ [a]) = step cfg (run cfg acts) a := by
  unfold run
  rw [List.foldl_append]
  rfl

/-! ## C10: GetIfExists with an expired or absent record -/

/-- C10: while the backend still holds an expired record for `K`,
`GetIfExists` returns `present = false` with the expired record's stored
value; when no record is present it returns the zero value of `V`; in both
cases `Misses` is incremented and nothing but the counter changes. -/
theorem getIfExists_expired_and_absent (cfg : Cfg) (st : CState) (k : Nat) :
    (∀ val, alookup k st.values = some val →
      val.isExpired st.now cfg.ttl = true →
        getIfExists cfg st k =
          (val.v, false,
            { st with stats := { st.stats with misses := st.stats.misses + 1 } })) ∧
    (alookup k st.values = none →
        getIfExists cfg st k =
          (0, false,
            { st with stats := { st.stats with misses := st.stats.misses + 1 } })) := by
  constructor
  · intro val hv hexp
    unfold getIfExists
    rw [hv]
    simp [hexp]
  · intro hnone
    unfold getIfExists
    rw [hnone]

/-- Witness for `getIfExists_expired_and_absent`: a backend holding an
expired record (`created = 0`, `ttl = 1`, `now = 5`) under key 1 and
nothing under key 2. -/
theorem getIfExists_expired_and_absent_witness :
    getIfExists ⟨1, 1, false⟩ ⟨5, [(1, ⟨42, 0⟩)], [], [], [], [], ⟨0, 0, 0, 0⟩⟩ 1 =
      (42, false, ⟨5, [(1, ⟨42, 0⟩)], [], [], [], [], ⟨0, 0, 1, 0⟩⟩) ∧
    getIfExists ⟨1, 1, false⟩ ⟨5, [(1, ⟨42, 0⟩)], [], [], [], [], ⟨0, 0, 0, 0⟩⟩ 2 =
      (0, false, ⟨5, [(1, ⟨42, 0⟩)], [], [], [], [], ⟨0, 0, 1, 0⟩⟩) := by
  constructor
  · exact (getIfExists_expired_and_absent ⟨1, 1, false⟩
      ⟨5, [(1, ⟨42, 0⟩)], [], [], [], [], ⟨0, 0, 0, 0⟩⟩ 1).1 ⟨42, 0⟩ (by decide) (by decide)
  · exact (getIfExists_expired_and_absent ⟨1, 1, false⟩
      ⟨5, [(1, ⟨42, 0⟩)], [], [], [], [], ⟨0, 0, 0, 0⟩⟩ 2).2 (by decide)


/-! ## Observation functions on system states -/

/-- Number of loader invocations for `k` currently in flight (between the
`created := now` line and the loader's return). -/
def runningFor (st : CState) (k : Nat) : Nat :=
  st.tasks.countP (fun t => decide (t.key = k) && decide (t.phase = TaskPhase.running))

/-- Number of `c.set` executions for `k` that have been scheduled but whose
loader has not yet returned. -/
def activeFor (st : CState) (k : Nat) : Nat :=
  st.tasks.countP (fun t => decide (t.key = k) &&
    (decide (t.phase = TaskPhase.notStarted) || decide (t.phase = TaskPhase.running)))

/-- Is this `Get` thread completed? -/
def GetThread.isDone (g : GetThread) : Bool :=
  match g.phase with
  | .done _ _ _ _ _ => true
  | _ => false

/-- Number of completed `Get` calls. -/
def doneGets (st : CState) : Nat :=
  st.gets.countP GetThread.isDone

/-- Number of loader invocations that have returned. -/
def tasksFinished (st : CState) : Nat :=
  st.tasks.countP (fun t => decide (t.phase = TaskPhase.finished))

/-- Sum of the per-thread counter-increment counts. -/
def ticksSum (st : CState) : Nat :=
  (st.gets.map GetThread.ticks).sum

/-- No `Get` mid-execution and no loader invocation mid-execution. -/
def quiescent (st : CState) : Bool :=
  st.gets.all GetThread.isDone &&
    st.tasks.all (fun t => decide (t.phase = TaskPhase.finished))

/-! ## C1, C3, C5: counterexample schedules -/

/-- Schedule refuting C1 as stated: `Get` leads a load for key 1, the load
starts, `Forget 1` detaches it, and a second `Get` then leads a second load
for key 1 that starts while the first is still in flight. -/
def overlapTrace : List Act :=
  [.spawnGet 1, .stepGet 0, .startTask 0, .forget 1,
   .spawnGet 1, .stepGet 1, .startTask 1]

/-- C1 counterexample: on `overlapTrace` two loader invocations for key 1
are in flight at the same instant, so "at most one loader invocation for K
is in flight at any wall-clock instant" is false of the code once `Forget`
is allowed to intervene. -/
theorem single_flight_counterexample :
    runningFor (run ⟨0, 0, false⟩ overlapTrace) 1 = 2 ∧
      ¬runningFor (run ⟨0, 0, false⟩ overlapTrace) 1 ≤ 1 := by decide

/-- Schedule refuting C3 as stated: strict coalescing, `freshFor = 1`,
`ttl = 10`. A load for key 1 completes with `created = 0`; at `t0 = 5` a
second `Get` arrives, finds the record stale-but-unexpired, and is served
it (grace hit) with a nil error even though `created + freshFor = 1 ≤ 5`. -/
def staleServeTrace : List Act :=
  [.spawnGet 1, .stepGet 0, .startTask 0, .finishTask 0 5 none,
   .stepGet 0, .tick 5, .spawnGet 1, .stepGet 1]

/-- C3 counterexample: with strict coalescing enabled, `Get` returns with a
nil error a record already stale at the caller's arrival
(`created + freshFor = 0 + 1 ≤ t0 = 5`): the grace branch of `Get` serves
stale records regardless of the strict flag. -/
theorem strict_freshness_counterexample :
    (run ⟨1, 10, true⟩ staleServeTrace).gets.get? 1 =
        some ⟨1, .done 5 5 none 0 none, 1⟩ ∧
      ¬((0 : Int) + 1 > 5) := by decide

/-- Schedule refuting C5's `Hits + GraceHits + Misses` clause: strict
coalescing, `freshFor = ttl = 5`. A leader `Get` and a coalesced `Get`
both record a miss; after the load completes the coalesced waiter retries,
finds the fresh record and also records a hit. -/
def doubleCountTrace : List Act :=
  [.spawnGet 1, .stepGet 0, .spawnGet 1, .stepGet 1, .startTask 0,
   .finishTask 0 7 none, .stepGet 0, .stepGet 1, .stepGet 1]

/-- C5 counterexample: at a quiescent point of `doubleCountTrace` two `Get`
calls have completed but `Hits + GraceHits + Misses = 3`: a strict-mode
coalesced waiter that retries increments the counters twice. -/
theorem counter_conservation_counterexample :
    quiescent (run ⟨5, 5, true⟩ doubleCountTrace) = true ∧
      doneGets (run ⟨5, 5, true⟩ doubleCountTrace) = 2 ∧
      (run ⟨5, 5, true⟩ doubleCountTrace).stats.hits +
        (run ⟨5, 5, true⟩ doubleCountTrace).stats.graceHits +
        (run ⟨5, 5, true⟩ doubleCountTrace).stats.misses = 3 := by decide


/-! ## C9: sequential round trips -/

/-- Intermediate state equality for the sequential reuse scenario: after a
leader `Get` completes (loader ran once, taking `d1`), and `d2` more time
passes, a second `Get` for the same key has been spawned. -/
theorem seq_trace_upto8 (cfg : Cfg) (k v : Nat) (d1 d2 : Nat) :
    run cfg [.spawnGet k, .stepGet 0, .startTask 0, .tick d1,
      .finishTask 0 v none, .stepGet 0, .tick d2, .spawnGet k] =
      ⟨0 + (d1 : Int) + (d2 : Int), [(k, ⟨v, 0⟩)], [], [⟨true, 0, v, none, true⟩],
        [⟨k, .done 0 v none 0 (some 0), 1⟩, ⟨k, .classify (0 + (d1 : Int) + (d2 : Int)), 0⟩],
        [⟨k, 0, .finished⟩], ⟨0, 0, 1, 1⟩⟩ := by
  have e5 : run cfg [.spawnGet k, .stepGet 0, .startTask 0, .tick d1,
      .finishTask 0 v none] =
      ⟨0 + (d1 : Int), [(k, ⟨v, 0⟩)], [], [⟨true, 0, v, none, true⟩],
        [⟨k, .loading 0 0, 1⟩], [⟨k, 0, .finished⟩], ⟨0, 0, 1, 1⟩⟩ := by
    rw [show ([.spawnGet k, .stepGet 0, .startTask 0, .tick d1,
        .finishTask 0 v none] : List Act) =
      [.spawnGet k, .stepGet 0, .startTask 0, .tick d1] ++ [.finishTask 0 v none]
      from rfl, run_concat]
    rw [show run cfg [.spawnGet k, .stepGet 0, .startTask 0, .tick d1] =
      ⟨0 + (d1 : Int), [], [(k, 0)], [⟨true, 0, 0, none, false⟩],
        [⟨k, .loading 0 0, 1⟩], [⟨k, 0, .running⟩], ⟨0, 0, 1, 0⟩⟩ from rfl]
    simp only [step]
    unfold finishTask
    simp only [List.get?_cons_zero, alookup_cons_self]
    simp only [if_true, aupsert, aerase_nil, aerase_cons_self]
    rfl
  rw [show ([.spawnGet k, .stepGet 0, .startTask 0, .tick d1,
      .finishTask 0 v none, .stepGet 0, .tick d2, .spawnGet k] : List Act) =
    [.spawnGet k, .stepGet 0, .startTask 0, .tick d1, .finishTask 0 v none]
      ++ [.stepGet 0] ++ [.tick d2] ++ [.spawnGet k] from rfl]
  rw [run_concat, run_concat, run_concat, e5]
  rfl

/-- C9: in a sequential execution, `Forget(K)` followed by `Get(K)` always
creates a new loader invocation, whatever the cache state; and a `Get(K)`
that loaded a record (the loader running from time 0 to `d1`) followed,
`d2` later, by another `Get(K)` arriving within `freshFor` of the record's
creation leaves exactly one loader invocation in the history: the second
`Get` completes from the backend (a fresh hit, coalesced with no call). -/
theorem sequential_forget_and_reuse (cfg : Cfg) :
    (∀ (st : CState) (k : Nat),
      (step cfg (step cfg (step cfg st (.forget k)) (.spawnGet k))
          (.stepGet st.gets.length)).tasks =
        st.tasks ++ [⟨k, st.calls.length, .notStarted⟩]) ∧
    (∀ (k v : Nat) (d1 d2 : Nat), (d1 : Int) + d2 < cfg.freshFor →
      (run cfg [.spawnGet k, .stepGet 0, .startTask 0, .tick d1,
          .finishTask 0 v none, .stepGet 0, .tick d2, .spawnGet k,
          .stepGet 1]).tasks = [⟨k, 0, .finished⟩] ∧
      (run cfg [.spawnGet k, .stepGet 0, .startTask 0, .tick d1,
          .finishTask 0 v none, .stepGet 0, .tick d2, .spawnGet k,
          .stepGet 1]).gets =
        [⟨k, .done 0 v none 0 (some 0), 1⟩,
          ⟨k, .done (0 + (d1 : Int) + (d2 : Int)) v none 0 none, 1⟩]) := by
  constructor
  · intro st k
    simp only [step, forgetKey]
    simp only [stepGet, get?_concat_length]
    simp only [classifyCore, alookup_aerase_self, missStep]
  · intro k v d1 d2 hfresh
    rw [show ([.spawnGet k, .stepGet 0, .startTask 0, .tick d1,
        .finishTask 0 v none, .stepGet 0, .tick d2, .spawnGet k,
        .stepGet 1] : List Act) =
      [.spawnGet k, .stepGet 0, .startTask 0, .tick d1, .finishTask 0 v none,
        .stepGet 0, .tick d2, .spawnGet k] ++ [.stepGet 1] from rfl]
    rw [run_concat, seq_trace_upto8]
    simp only [step]
    unfold stepGet
    simp only [List.get?_cons_succ, List.get?_cons_zero]
    unfold classifyCore
    simp only [alookup_cons_self]
    rw [if_pos (show Val.isFresh ⟨v, 0⟩ (0 + (d1 : Int) + (d2 : Int)) cfg.freshFor = true by
      simp only [Val.isFresh, decide_eq_true_eq]
      simpa using hfresh)]
    exact ⟨rfl, rfl⟩

/-- Witness for `sequential_forget_and_reuse`: `freshFor = 10`, loader
duration 2, gap 3, so the second `Get` arrives at `t0 = 5 < 10`. -/
theorem sequential_forget_and_reuse_witness :
    ((2 : Int) + 3 < 10) ∧
    ((run ⟨10, 10, false⟩ [.spawnGet 1, .stepGet 0, .startTask 0, .tick 2,
        .finishTask 0 7 none, .stepGet 0, .tick 3, .spawnGet 1,
        .stepGet 1]).tasks = [⟨1, 0, .finished⟩] ∧
      (run ⟨10, 10, false⟩ [.spawnGet 1, .stepGet 0, .startTask 0, .tick 2,
          .finishTask 0 7 none, .stepGet 0, .tick 3, .spawnGet 1,
          .stepGet 1]).gets =
        [⟨1, .done 0 7 none 0 (some 0), 1⟩,
          ⟨1, .done (0 + (2 : Int) + (3 : Int)) 7 none 0 none, 1⟩]) :=
  ⟨by decide, (sequential_forget_and_reuse ⟨10, 10, false⟩).2 1 7 2 3 (by decide)⟩


/-! ## List bookkeeping lemmas for the invariant proofs -/

theorem get?_set_self (l : List α) (i : Nat) (b : α) (h : i < l.length) :
    (l.set i b).get? i = some b := by
  rw [List.get?_eq_getElem?, List.getElem?_set]
  simp [h]

theorem get?_set_ne (l : List α) (i j : Nat) (b : α) (h : i ≠ j) :
    (l.set i b).get? j = l.get? j := by
  rw [List.get?_eq_getElem?, List.getElem?_set, if_neg h, List.get?_eq_getElem?]

theorem countP_set (l : List α) (i : Nat) (b a : α) (h : l.get? i = some a)
    (p : α → Bool) :
    (l.set i b).countP p + (if p a then 1 else 0) =
      l.countP p + (if p b then 1 else 0) := by
  induction l generalizing i with
  | nil => cases h
  | cons x l ih =>
    cases i with
    | zero =>
      simp only [List.get?_cons_zero, Option.some_inj] at h
      subst h
      simp only [List.set_cons_zero, List.countP_cons]
      by_cases hb : p b = true <;> by_cases hx : p x = true <;> simp [hb, hx] <;> omega
    | succ n =>
      simp only [List.get?_cons_succ] at h
      simp only [List.set_cons_succ, List.countP_cons]
      have := ih n h
      by_cases hx : p x = true <;> simp [hx] <;> omega

theorem sum_map_set (l : List α) (i : Nat) (b a : α) (h : l.get? i = some a)
    (f : α → Nat) :
    ((l.set i b).map f).sum + f a = (l.map f).sum + f b := by
  induction l generalizing i with
  | nil => cases h
  | cons x l ih =>
    cases i with
    | zero =>
      simp only [List.get?_cons_zero, Option.some_inj] at h
      subst h
      simp only [List.set_cons_zero, List.map_cons, List.sum_cons]
      omega
    | succ n =>
      simp only [List.get?_cons_succ] at h
      simp only [List.set_cons_succ, List.map_cons, List.sum_cons]
      have := ih n h
      omega

theorem map_set_same (l : List α) (i : Nat) (b a : α) (h : l.get? i = some a)
    (f : α → β) (hfb : f b = f a) : (l.set i b).map f = l.map f := by
  induction l generalizing i with
  | nil => cases h
  | cons x l ih =>
    cases i with
    | zero =>
      simp only [List.get?_cons_zero, Option.some_inj] at h
      subst h
      simp [List.set_cons_zero, hfb]
    | succ n =>
      simp only [List.get?_cons_succ] at h
      simp [List.set_cons_succ, ih n h]

/-! ## The global well-formedness invariant of the cache core -/

/-- The arrival timestamp a `Get` thread carries in any phase. -/
def phaseT0 : Phase → Int
  | .classify t0 => t0
  | .retry t0 _ => t0
  | .waiting t0 _ => t0
  | .loading t0 _ => t0
  | .done t0 _ _ _ _ => t0

/-- Lower bound on the number of counter increments a thread in the given
phase has performed. -/
def phaseTicksLB : Phase → Nat
  | .classify _ => 0
  | _ => 1

/-- Invariants of every reachable state (any schedule, `Forget`/`Purge`
included), for a configuration with `0 ≤ ttl` and `freshFor ≤ ttl`. -/
structure Inv (cfg : Cfg) (st : CState) : Prop where
  t0_le_now : ∀ g ∈ st.gets, phaseT0 g.phase ≤ st.now
  task_cid_lt : ∀ t ∈ st.tasks, t.cid < st.calls.length
  cids_nodup : (st.tasks.map SetTask.cid).Nodup
  started_of_active : ∀ t ∈ st.tasks, t.phase ≠ TaskPhase.notStarted →
    ∀ rec, st.calls.get? t.cid = some rec → rec.started = true
  finished_of_done : ∀ t ∈ st.tasks, ∀ rec, st.calls.get? t.cid = some rec →
    rec.done = true → t.phase = TaskPhase.finished
  started_of_done : ∀ cid rec, st.calls.get? cid = some rec →
    rec.done = true → rec.started = true
  loading_created : ∀ g ∈ st.gets, ∀ t0 cid, g.phase = .loading t0 cid →
    ∀ rec, st.calls.get? cid = some rec → rec.started = true → t0 ≤ rec.created
  done_src_lt : ∀ g ∈ st.gets, ∀ t0 v err cr cid,
    g.phase = .done t0 v err cr (some cid) → cid < st.calls.length
  done_from_call : ∀ g ∈ st.gets, ∀ t0 v err cr cid,
    g.phase = .done t0 v err cr (some cid) →
    ∀ rec, st.calls.get? cid = some rec →
      rec.done = true ∧ v = rec.v ∧ err = rec.err ∧ cr = rec.created
  strict_done_ok : cfg.strict = true → ∀ g ∈ st.gets, ∀ t0 v cr src,
    g.phase = .done t0 v none cr src → t0 ≤ cr + cfg.ttl
  repl_count : st.stats.replacements = tasksFinished st
  ticks_count : st.stats.hits + st.stats.graceHits + st.stats.misses = ticksSum st
  ticks_lb : ∀ g ∈ st.gets, phaseTicksLB g.phase ≤ g.ticks

theorem inv_init (cfg : Cfg) : Inv cfg init := by
  constructor <;> simp [init, tasksFinished, ticksSum]


/-- Transfer of the invariant between states that agree on every field it
mentions (`Forget`/`Purge` touch only the in-flight table and backend). -/
theorem inv_congr (cfg : Cfg) (st st' : CState) (h : Inv cfg st)
    (hnow : st'.now = st.now) (hcalls : st'.calls = st.calls)
    (hgets : st'.gets = st.gets) (htasks : st'.tasks = st.tasks)
    (hstats : st'.stats = st.stats) : Inv cfg st' := by
  constructor
  · rw [hgets, hnow]; exact h.t0_le_now
  · rw [htasks, hcalls]; exact h.task_cid_lt
  · rw [htasks]; exact h.cids_nodup
  · rw [htasks, hcalls]; exact h.started_of_active
  · rw [htasks, hcalls]; exact h.finished_of_done
  · rw [hcalls]; exact h.started_of_done
  · rw [hgets, hcalls]; exact h.loading_created
  · rw [hgets, hcalls]; exact h.done_src_lt
  · rw [hgets, hcalls]; exact h.done_from_call
  · rw [hgets]; exact h.strict_done_ok
  · rw [hstats]
    unfold tasksFinished
    rw [htasks]
    exact h.repl_count
  · rw [hstats]
    unfold ticksSum
    rw [hgets]
    exact h.ticks_count
  · rw [hgets]; exact h.ticks_lb

theorem inv_forgetKey (cfg : Cfg) (st : CState) (k : Nat) (h : Inv cfg st) :
    Inv cfg (forgetKey st k) :=
  inv_congr cfg st _ h rfl rfl rfl rfl rfl

theorem inv_purgeAll (cfg : Cfg) (st : CState) (h : Inv cfg st) :
    Inv cfg (purgeAll st) :=
  inv_congr cfg st _ h rfl rfl rfl rfl rfl

theorem inv_tick (cfg : Cfg) (st : CState) (d : Nat) (h : Inv cfg st) :
    Inv cfg { st with now := st.now + (d : Int) } := by
  constructor
  · intro g hg
    have := h.t0_le_now g hg
    have hd : (0 : Int) ≤ (d : Int) := Int.natCast_nonneg d
    calc phaseT0 g.phase ≤ st.now := this
      _ ≤ st.now + (d : Int) := le_add_of_nonneg_right hd
  · exact h.task_cid_lt
  · exact h.cids_nodup
  · exact h.started_of_active
  · exact h.finished_of_done
  · exact h.started_of_done
  · exact h.loading_created
  · exact h.done_src_lt
  · exact h.done_from_call
  · exact h.strict_done_ok
  · exact h.repl_count
  · exact h.ticks_count
  · exact h.ticks_lb

theorem inv_spawnGet (cfg : Cfg) (st : CState) (k : Nat) (h : Inv cfg st) :
    Inv cfg { st with gets := st.gets ++ [⟨k, .classify st.now, 0⟩] } := by
  have hmem : ∀ g : GetThread, g ∈ st.gets ++ [⟨k, .classify st.now, 0⟩] →
      g ∈ st.gets ∨ g = ⟨k, .classify st.now, 0⟩ := by
    intro g hg
    rcases List.mem_append.mp hg with h1 | h1
    · exact Or.inl h1
    · exact Or.inr (List.mem_singleton.mp h1)
  constructor
  · intro g hg
    rcases hmem g hg with h1 | h1
    · exact h.t0_le_now g h1
    · subst h1; exact le_refl _
  · exact h.task_cid_lt
  · exact h.cids_nodup
  · exact h.started_of_active
  · exact h.finished_of_done
  · exact h.started_of_done
  · intro g hg t0 cid hph
    rcases hmem g hg with h1 | h1
    · exact h.loading_created g h1 t0 cid hph
    · subst h1; cases hph
  · intro g hg t0 v err cr cid hph
    rcases hmem g hg with h1 | h1
    · exact h.done_src_lt g h1 t0 v err cr cid hph
    · subst h1; cases hph
  · intro g hg t0 v err cr cid hph
    rcases hmem g hg with h1 | h1
    · exact h.done_from_call g h1 t0 v err cr cid hph
    · subst h1; cases hph
  · intro hs g hg t0 v cr src hph
    rcases hmem g hg with h1 | h1
    · exact h.strict_done_ok hs g h1 t0 v cr src hph
    · subst h1; cases hph
  · exact h.repl_count
  · show st.stats.hits + st.stats.graceHits + st.stats.misses =
      ((st.gets ++ [(⟨k, .classify st.now, 0⟩ : GetThread)]).map GetThread.ticks).sum
    rw [List.map_append, List.sum_append]
    simpa using h.ticks_count
  · intro g hg
    rcases hmem g hg with h1 | h1
    · exact h.ticks_lb g h1
    · subst h1; exact Nat.zero_le _


theorem inv_startTask (cfg : Cfg) (st : CState) (i : Nat) (h : Inv cfg st) :
    Inv cfg (startTask st i) := by
  unfold startTask
  split
  all_goals try exact h
  split
  all_goals try exact h
  split
  all_goals try exact h
  rename_i x0 t hti x1 hph x2 rec hrec
  have htmem : t ∈ st.tasks := List.get?_mem hti
  have hcidlt : t.cid < st.calls.length := h.task_cid_lt _ htmem
  constructor
  · exact h.t0_le_now
  · intro t' ht'
    rcases List.mem_or_eq_of_mem_set ht' with h1 | h1
    · have := h.task_cid_lt t' h1
      simpa [List.length_set] using this
    · subst h1
      simpa [List.length_set] using hcidlt
  · show ((st.tasks.set i ⟨t.key, t.cid, .running⟩).map SetTask.cid).Nodup
    rw [map_set_same st.tasks i ⟨t.key, t.cid, .running⟩ t hti SetTask.cid rfl]
    exact h.cids_nodup
  · intro t' ht' hact rec2 hrec2
    by_cases hc : t.cid = t'.cid
    · rw [← hc, get?_set_self st.calls t.cid _ hcidlt] at hrec2
      cases hrec2
      rfl
    · rw [get?_set_ne st.calls t.cid t'.cid _ hc] at hrec2
      rcases List.mem_or_eq_of_mem_set ht' with h1 | h1
      · exact h.started_of_active t' h1 hact rec2 hrec2
      · subst h1
        simp at hc
  · intro t' ht' rec2 hrec2 hdone
    by_cases hc : t.cid = t'.cid
    · rw [← hc, get?_set_self st.calls t.cid _ hcidlt] at hrec2
      cases hrec2
      simp only at hdone
      have hfin := h.finished_of_done _ htmem rec hrec hdone
      rw [hph] at hfin
      cases hfin
    · rw [get?_set_ne st.calls t.cid t'.cid _ hc] at hrec2
      rcases List.mem_or_eq_of_mem_set ht' with h1 | h1
      · exact h.finished_of_done t' h1 rec2 hrec2 hdone
      · subst h1
        simp at hc
  · intro cid rec2 hrec2 hdone
    by_cases hc : t.cid = cid
    · subst hc
      rw [get?_set_self st.calls t.cid _ hcidlt] at hrec2
      cases hrec2
      rfl
    · rw [get?_set_ne st.calls t.cid cid _ hc] at hrec2
      exact h.started_of_done cid rec2 hrec2 hdone
  · intro g hg t0 cid hphg rec2 hrec2 hstarted
    by_cases hc : t.cid = cid
    · subst hc
      rw [get?_set_self st.calls t.cid _ hcidlt] at hrec2
      cases hrec2
      have := h.t0_le_now g hg
      rw [hphg] at this
      simpa using this
    · rw [get?_set_ne st.calls t.cid cid _ hc] at hrec2
      exact h.loading_created g hg t0 cid hphg rec2 hrec2 hstarted
  · intro g hg t0 v err cr cid hphg
    have := h.done_src_lt g hg t0 v err cr cid hphg
    simpa [List.length_set] using this
  · intro g hg t0 v err cr cid hphg rec2 hrec2
    by_cases hc : t.cid = cid
    · subst hc
      have hold := h.done_from_call g hg t0 v err cr t.cid hphg rec hrec
      have hfin := h.finished_of_done _ htmem rec hrec hold.1
      rw [hph] at hfin
      cases hfin
    · rw [get?_set_ne st.calls t.cid cid _ hc] at hrec2
      exact h.done_from_call g hg t0 v err cr cid hphg rec2 hrec2
  · exact h.strict_done_ok
  · show st.stats.replacements =
      (st.tasks.set i ⟨t.key, t.cid, .running⟩).countP
        (fun t => decide (t.phase = TaskPhase.finished))
    have hcnt := countP_set st.tasks i ⟨t.key, t.cid, .running⟩ t hti
      (fun t => decide (t.phase = TaskPhase.finished))
    rw [h.repl_count]
    unfold tasksFinished
    simp only [hph, decide_eq_true_eq] at hcnt
    simp at hcnt
    omega
  · exact h.ticks_count
  · exact h.ticks_lb


theorem eq_of_mem_set_of_nodup_map {α β : Type} (f : α → β) (l : List α)
    (i : Nat) (a b t' : α) (hnd : (l.map f).Nodup) (ha : l.get? i = some a)
    (hfb : f b = f a) (ht' : t' ∈ l.set i b) (hft' : f t' = f a) : t' = b := by
  induction l generalizing i with
  | nil => cases ha
  | cons x l ih =>
    simp only [List.map_cons, List.nodup_cons] at hnd
    cases i with
    | zero =>
      simp only [List.get?_cons_zero, Option.some_inj] at ha
      subst ha
      simp only [List.set_cons_zero] at ht'
      rcases List.mem_cons.mp ht' with h1 | h1
      · exact h1
      · exfalso
        exact hnd.1 (by rw [← hft']; exact List.mem_map_of_mem f h1)
    | succ n =>
      simp only [List.get?_cons_succ] at ha
      simp only [List.set_cons_succ] at ht'
      rcases List.mem_cons.mp ht' with h1 | h1
      · exfalso
        apply hnd.1
        rw [← h1, hft']
        have : a ∈ l := List.get?_mem ha
        exact List.mem_map_of_mem f this
      · exact ih n hnd.2 ha h1

theorem inv_finishTask (cfg : Cfg) (st : CState) (i : Nat) (v : Nat)
    (err : Option Nat) (h : Inv cfg st) : Inv cfg (finishTask st i v err) := by
  unfold finishTask
  split
  all_goals try exact h
  split
  all_goals try exact h
  split
  all_goals try exact h
  rename_i x0 t hti x1 hph x2 rec hrec
  have htmem : t ∈ st.tasks := List.get?_mem hti
  have hcidlt : t.cid < st.calls.length := h.task_cid_lt _ htmem
  have hrun : t.phase ≠ TaskPhase.notStarted := by rw [hph]; intro hcon; cases hcon
  have hstarted : rec.started = true := h.started_of_active t htmem hrun rec hrec
  have hmain : Inv cfg
      { st with
        calls := st.calls.set t.cid { rec with v := v, err := err, done := true }
        tasks := st.tasks.set i ⟨t.key, t.cid, TaskPhase.finished⟩
        stats := { st.stats with replacements := st.stats.replacements + 1 } } := by
    constructor
    · exact h.t0_le_now
    · intro t' ht'
      rcases List.mem_or_eq_of_mem_set ht' with h1 | h1
      · have := h.task_cid_lt t' h1
        simpa [List.length_set] using this
      · subst h1
        simpa [List.length_set] using hcidlt
    · show ((st.tasks.set i ⟨t.key, t.cid, .finished⟩).map SetTask.cid).Nodup
      rw [map_set_same st.tasks i ⟨t.key, t.cid, .finished⟩ t hti SetTask.cid rfl]
      exact h.cids_nodup
    · intro t' ht' hact rec2 hrec2
      by_cases hc : t.cid = t'.cid
      · rw [← hc, get?_set_self st.calls t.cid _ hcidlt] at hrec2
        cases hrec2
        exact hstarted
      · rw [get?_set_ne st.calls t.cid t'.cid _ hc] at hrec2
        rcases List.mem_or_eq_of_mem_set ht' with h1 | h1
        · exact h.started_of_active t' h1 hact rec2 hrec2
        · subst h1
          simp at hc
    · intro t' ht' rec2 hrec2 hdone
      by_cases hc : t.cid = t'.cid
      · have ht'eq : t' = ⟨t.key, t.cid, TaskPhase.finished⟩ :=
          eq_of_mem_set_of_nodup_map SetTask.cid st.tasks i t _ t'
            h.cids_nodup hti rfl ht' hc.symm
        rw [ht'eq]
      · rw [get?_set_ne st.calls t.cid t'.cid _ hc] at hrec2
        rcases List.mem_or_eq_of_mem_set ht' with h1 | h1
        · exact h.finished_of_done t' h1 rec2 hrec2 hdone
        · subst h1
          simp at hc
    · intro cid rec2 hrec2 hdone
      by_cases hc : t.cid = cid
      · subst hc
        rw [get?_set_self st.calls t.cid _ hcidlt] at hrec2
        cases hrec2
        exact hstarted
      · rw [get?_set_ne st.calls t.cid cid _ hc] at hrec2
        exact h.started_of_done cid rec2 hrec2 hdone
    · intro g hg t0 cid hphg rec2 hrec2 hstarted2
      by_cases hc : t.cid = cid
      · subst hc
        rw [get?_set_self st.calls t.cid _ hcidlt] at hrec2
        cases hrec2
        simp only at hstarted2
        exact h.loading_created g hg t0 t.cid hphg rec hrec hstarted2
      · rw [get?_set_ne st.calls t.cid cid _ hc] at hrec2
        exact h.loading_created g hg t0 cid hphg rec2 hrec2 hstarted2
    · intro g hg t0 v2 err2 cr cid hphg
      have := h.done_src_lt g hg t0 v2 err2 cr cid hphg
      simpa [List.length_set] using this
    · intro g hg t0 v2 err2 cr cid hphg rec2 hrec2
      by_cases hc : t.cid = cid
      · subst hc
        have hold := h.done_from_call g hg t0 v2 err2 cr t.cid hphg rec hrec
        have hfin := h.finished_of_done t htmem rec hrec hold.1
        rw [hph] at hfin
        cases hfin
      · rw [get?_set_ne st.calls t.cid cid _ hc] at hrec2
        exact h.done_from_call g hg t0 v2 err2 cr cid hphg rec2 hrec2
    · exact h.strict_done_ok
    · show st.stats.replacements + 1 =
        (st.tasks.set i ⟨t.key, t.cid, .finished⟩).countP
          (fun t => decide (t.phase = TaskPhase.finished))
      have hcnt := countP_set st.tasks i ⟨t.key, t.cid, .finished⟩ t hti
        (fun t => decide (t.phase = TaskPhase.finished))
      rw [h.repl_count]
      unfold tasksFinished
      simp only [hph] at hcnt
      simp at hcnt
      omega
    · exact h.ticks_count
    · exact h.ticks_lb
  dsimp only
  split
  · exact inv_congr cfg _ _ hmain rfl rfl rfl rfl rfl
  · exact hmain


theorem get?_append_lt (l l2 : List α) (i : Nat) (h : i < l.length) :
    (l ++ l2).get? i = l.get? i := by
  rw [List.get?_eq_getElem?, List.get?_eq_getElem?]
  exact List.getElem?_append_left h

theorem get?_concat_cases (l : List α) (x y : α) (i : Nat)
    (h : (l ++ [x]).get? i = some y) : l.get? i = some y ∨ y = x := by
  rcases Nat.lt_trichotomy i l.length with hlt | heq | hgt
  · rw [get?_append_lt l [x] i hlt] at h
    exact Or.inl h
  · subst heq
    rw [get?_concat_length] at h
    cases h
    exact Or.inr rfl
  · rw [List.get?_eq_getElem?, List.getElem?_append_right (by omega)] at h
    have : i - l.length ≥ 1 := by omega
    rcases hn : i - l.length with _ | n
    · omega
    · rw [hn] at h
      simp at h

/-- Replacing `Get` thread `tid` by `g'` (and adjusting only the hit/grace/
miss counters) preserves the invariant, given local facts about `g'`. -/
theorem inv_set_get (cfg : Cfg) (st : CState) (tid : Nat) (g g' : GetThread)
    (s' : HS) (h : Inv cfg st) (hg : st.gets.get? tid = some g)
    (h1 : phaseT0 g'.phase ≤ st.now)
    (h2 : ∀ t0 cid, g'.phase = .loading t0 cid →
      ∀ rec, st.calls.get? cid = some rec → rec.started = true → t0 ≤ rec.created)
    (h3 : ∀ t0 v err cr cid, g'.phase = .done t0 v err cr (some cid) →
      cid < st.calls.length)
    (h4 : ∀ t0 v err cr cid, g'.phase = .done t0 v err cr (some cid) →
      ∀ rec, st.calls.get? cid = some rec →
        rec.done = true ∧ v = rec.v ∧ err = rec.err ∧ cr = rec.created)
    (h5 : cfg.strict = true → ∀ t0 v cr src, g'.phase = .done t0 v none cr src →
      t0 ≤ cr + cfg.ttl)
    (h6 : phaseTicksLB g'.phase ≤ g'.ticks)
    (hrepl : s'.replacements = st.stats.replacements)
    (hsum : s'.hits + s'.graceHits + s'.misses + g.ticks =
      st.stats.hits + st.stats.graceHits + st.stats.misses + g'.ticks) :
    Inv cfg { st with gets := st.gets.set tid g', stats := s' } := by
  have hmem : ∀ x : GetThread, x ∈ st.gets.set tid g' → x ∈ st.gets ∨ x = g' :=
    fun x hx => List.mem_or_eq_of_mem_set hx
  constructor
  · intro x hx
    rcases hmem x hx with hh | hh
    · exact h.t0_le_now x hh
    · subst hh; exact h1
  · exact h.task_cid_lt
  · exact h.cids_nodup
  · exact h.started_of_active
  · exact h.finished_of_done
  · exact h.started_of_done
  · intro x hx t0 cid hph
    rcases hmem x hx with hh | hh
    · exact h.loading_created x hh t0 cid hph
    · subst hh; exact h2 t0 cid hph
  · intro x hx t0 v err cr cid hph
    rcases hmem x hx with hh | hh
    · exact h.done_src_lt x hh t0 v err cr cid hph
    · subst hh; exact h3 t0 v err cr cid hph
  · intro x hx t0 v err cr cid hph
    rcases hmem x hx with hh | hh
    · exact h.done_from_call x hh t0 v err cr cid hph
    · subst hh; exact h4 t0 v err cr cid hph
  · intro hs x hx t0 v cr src hph
    rcases hmem x hx with hh | hh
    · exact h.strict_done_ok hs x hh t0 v cr src hph
    · subst hh; exact h5 hs t0 v cr src hph
  · show s'.replacements = tasksFinished st
    rw [hrepl]; exact h.repl_count
  · show s'.hits + s'.graceHits + s'.misses =
      ((st.gets.set tid g').map GetThread.ticks).sum
    have hsm := sum_map_set st.gets tid g' g hg GetThread.ticks
    have := h.ticks_count
    unfold ticksSum at this
    omega
  · intro x hx
    rcases hmem x hx with hh | hh
    · exact h.ticks_lb x hh
    · subst hh; exact h6


/-- Installing a fresh call for `key` (new call record, in-flight table
entry and `set` task) while replacing `Get` thread `tid` by `g'` preserves
the invariant. `g'` may be the new leader (`loading` at the fresh call id)
or a completed grace hit (`done` with no source call). -/
theorem inv_spawn_set_get (cfg : Cfg) (st : CState) (tid : Nat)
    (g g' : GetThread) (key : Nat) (s' : HS) (h : Inv cfg st)
    (hg : st.gets.get? tid = some g)
    (h1 : phaseT0 g'.phase ≤ st.now)
    (h2 : ∀ t0 cid, g'.phase = .loading t0 cid → cid = st.calls.length)
    (hsrc : ∀ t0 v err cr cid, g'.phase ≠ .done t0 v err cr (some cid))
    (h5 : cfg.strict = true → ∀ t0 v cr src, g'.phase = .done t0 v none cr src →
      t0 ≤ cr + cfg.ttl)
    (h6 : phaseTicksLB g'.phase ≤ g'.ticks)
    (hrepl : s'.replacements = st.stats.replacements)
    (hsum : s'.hits + s'.graceHits + s'.misses + g.ticks =
      st.stats.hits + st.stats.graceHits + st.stats.misses + g'.ticks) :
    Inv cfg { st with
      calls := st.calls ++ [freshCall]
      callsTable := aupsert key st.calls.length st.callsTable
      tasks := st.tasks ++ [⟨key, st.calls.length, TaskPhase.notStarted⟩]
      gets := st.gets.set tid g'
      stats := s' } := by
  have hmemg : ∀ x : GetThread, x ∈ st.gets.set tid g' → x ∈ st.gets ∨ x = g' :=
    fun x hx => List.mem_or_eq_of_mem_set hx
  have hmemt : ∀ x : SetTask,
      x ∈ st.tasks ++ [(⟨key, st.calls.length, TaskPhase.notStarted⟩ : SetTask)] →
      x ∈ st.tasks ∨ x = ⟨key, st.calls.length, TaskPhase.notStarted⟩ := by
    intro x hx
    rcases List.mem_append.mp hx with hh | hh
    · exact Or.inl hh
    · exact Or.inr (List.mem_singleton.mp hh)
  have hlen : (st.calls ++ [freshCall]).length = st.calls.length + 1 := by
    simp
  constructor
  · intro x hx
    rcases hmemg x hx with hh | hh
    · exact h.t0_le_now x hh
    · subst hh; exact h1
  · intro t ht
    rcases hmemt t ht with hh | hh
    · have := h.task_cid_lt t hh
      simp only [hlen]
      omega
    · subst hh
      simp only [hlen]
      omega
  · show ((st.tasks ++ [(⟨key, st.calls.length, TaskPhase.notStarted⟩ : SetTask)]).map
      SetTask.cid).Nodup
    rw [List.map_append]
    rw [List.nodup_append]
    refine ⟨h.cids_nodup, List.nodup_singleton _, ?_⟩
    intro a ha hb
    simp only [List.map_cons, List.map_nil, List.mem_singleton] at hb
    subst hb
    rcases List.mem_map.mp ha with ⟨t, htm, hta⟩
    have := h.task_cid_lt t htm
    omega
  · intro t ht hact rec hrec
    rcases hmemt t ht with hh | hh
    · have hlt := h.task_cid_lt t hh
      rw [get?_append_lt st.calls [freshCall] t.cid hlt] at hrec
      exact h.started_of_active t hh hact rec hrec
    · subst hh
      simp at hact
  · intro t ht rec hrec hdone
    rcases hmemt t ht with hh | hh
    · have hlt := h.task_cid_lt t hh
      rw [get?_append_lt st.calls [freshCall] t.cid hlt] at hrec
      exact h.finished_of_done t hh rec hrec hdone
    · subst hh
      simp only at hrec
      rw [get?_concat_length] at hrec
      cases hrec
      cases hdone
  · intro cid rec hrec hdone
    rcases get?_concat_cases st.calls freshCall rec cid hrec with hh | hh
    · exact h.started_of_done cid rec hh hdone
    · subst hh
      cases hdone
  · intro x hx t0 cid hph rec hrec hstarted
    rcases hmemg x hx with hh | hh
    · rcases get?_concat_cases st.calls freshCall rec cid hrec with hh2 | hh2
      · exact h.loading_created x hh t0 cid hph rec hh2 hstarted
      · subst hh2
        cases hstarted
    · subst hh
      have := h2 t0 cid hph
      subst this
      rw [get?_concat_length] at hrec
      cases hrec
      cases hstarted
  · intro x hx t0 v err cr cid hph
    rcases hmemg x hx with hh | hh
    · have := h.done_src_lt x hh t0 v err cr cid hph
      rw [hlen]
      omega
    · subst hh
      exact absurd hph (hsrc t0 v err cr cid)
  · intro x hx t0 v err cr cid hph rec hrec
    rcases hmemg x hx with hh | hh
    · have hlt := h.done_src_lt x hh t0 v err cr cid hph
      rw [get?_append_lt st.calls [freshCall] cid hlt] at hrec
      exact h.done_from_call x hh t0 v err cr cid hph rec hrec
    · subst hh
      exact absurd hph (hsrc t0 v err cr cid)
  · intro hs x hx t0 v cr src hph
    rcases hmemg x hx with hh | hh
    · exact h.strict_done_ok hs x hh t0 v cr src hph
    · subst hh; exact h5 hs t0 v cr src hph
  · show s'.replacements =
      ((st.tasks ++ [(⟨key, st.calls.length, TaskPhase.notStarted⟩ : SetTask)]).countP
        (fun t => decide (t.phase = TaskPhase.finished)))
    rw [List.countP_append]
    have : ([(⟨key, st.calls.length, TaskPhase.notStarted⟩ : SetTask)].countP
        (fun t => decide (t.phase = TaskPhase.finished))) = 0 := by simp
    rw [this, hrepl, h.repl_count]
    rfl
  · show s'.hits + s'.graceHits + s'.misses =
      ((st.gets.set tid g').map GetThread.ticks).sum
    have hsm := sum_map_set st.gets tid g' g hg GetThread.ticks
    have := h.ticks_count
    unfold ticksSum at this
    omega
  · intro x hx
    rcases hmemg x hx with hh | hh
    · exact h.ticks_lb x hh
    · subst hh; exact h6


theorem inv_missStep (cfg : Cfg) (st : CState) (tid : Nat) (key : Nat)
    (t0 : Int) (g : GetThread) (h : Inv cfg st)
    (hg : st.gets.get? tid = some g) (ht0 : t0 ≤ st.now) :
    Inv cfg (missStep st tid key t0 g.ticks) := by
  unfold missStep
  split
  · rename_i cid htable
    refine inv_set_get cfg st tid g ⟨key, .waiting t0 cid, g.ticks + 1⟩ _ h hg
      ht0 ?_ ?_ ?_ ?_ ?_ rfl (by dsimp only; omega)
    · intro t0' cid' hph
      cases hph
    · intro t0' v' err' cr cid' hph
      cases hph
    · intro t0' v' err' cr cid' hph
      cases hph
    · intro hs t0' v' cr src hph
      cases hph
    · exact Nat.le_add_left 1 g.ticks
  · rename_i htable
    refine inv_spawn_set_get cfg st tid g
      ⟨key, .loading t0 st.calls.length, g.ticks + 1⟩ key _ h hg
      ht0 ?_ ?_ ?_ ?_ rfl (by dsimp only; omega)
    · intro t0' cid' hph
      cases hph
      rfl
    · intro t0' v' err' cr cid' hph
      cases hph
    · intro hs t0' v' cr src hph
      cases hph
    · exact Nat.le_add_left 1 g.ticks

theorem inv_classifyCore (cfg : Cfg) (st : CState) (tid : Nat) (key : Nat)
    (t0 : Int) (g : GetThread) (valOpt : Option Val) (h : Inv cfg st)
    (hg : st.gets.get? tid = some g) (ht0 : t0 ≤ st.now)
    (hfl : cfg.freshFor ≤ cfg.ttl) :
    Inv cfg (classifyCore cfg st tid key t0 g.ticks valOpt) := by
  unfold classifyCore
  split
  · rename_i x0 val
    split
    · rename_i hfresh
      have hbound : t0 ≤ val.created + cfg.ttl := by
        simp only [Val.isFresh, decide_eq_true_eq] at hfresh
        have hf2 : t0 < (val.created : Int) + cfg.freshFor := hfresh
        omega
      refine inv_set_get cfg st tid g
        ⟨key, .done t0 val.v none val.created none, g.ticks + 1⟩ _ h hg
        ht0 ?_ ?_ ?_ ?_ ?_ rfl (by dsimp only; omega)
      · intro t0' cid' hph
        cases hph
      · intro t0' v' err' cr cid' hph
        cases hph
      · intro t0' v' err' cr cid' hph
        cases hph
      · intro hs t0' v' cr src hph
        cases hph
        exact hbound
      · exact Nat.le_add_left 1 g.ticks
    · rename_i hnotfresh
      split
      · rename_i hnexp
        rw [Bool.not_eq_true'] at hnexp
        have hbound : t0 ≤ val.created + cfg.ttl := by
          simp only [Val.isExpired, decide_eq_false_iff_not, not_lt] at hnexp
          exact hnexp
        split
        · refine inv_set_get cfg st tid g
            ⟨key, .done t0 val.v none val.created none, g.ticks + 1⟩ _ h hg
            ht0 ?_ ?_ ?_ ?_ ?_ rfl (by dsimp only; omega)
          · intro t0' cid' hph
            cases hph
          · intro t0' v' err' cr cid' hph
            cases hph
          · intro t0' v' err' cr cid' hph
            cases hph
          · intro hs t0' v' cr src hph
            cases hph
            exact hbound
          · exact Nat.le_add_left 1 g.ticks
        · refine inv_spawn_set_get cfg st tid g
            ⟨key, .done t0 val.v none val.created none, g.ticks + 1⟩ key _ h hg
            ht0 ?_ ?_ ?_ ?_ rfl (by dsimp only; omega)
          · intro t0' cid' hph
            cases hph
          · intro t0' v' err' cr cid' hph
            cases hph
          · intro hs t0' v' cr src hph
            cases hph
            exact hbound
          · exact Nat.le_add_left 1 g.ticks
      · exact inv_missStep cfg st tid key t0 g h hg ht0
  · exact inv_missStep cfg st tid key t0 g h hg ht0


theorem inv_stepGet (cfg : Cfg) (st : CState) (tid : Nat) (h : Inv cfg st)
    (hfl : cfg.freshFor ≤ cfg.ttl) (httl : 0 ≤ cfg.ttl) :
    Inv cfg (stepGet cfg st tid) := by
  unfold stepGet
  split
  · exact h
  · rename_i x0 g hg
    have hgmem : g ∈ st.gets := List.get?_mem hg
    split
    · rename_i x1 t0 hph
      have ht0 : t0 ≤ st.now := by
        have := h.t0_le_now g hgmem
        rw [hph] at this
        exact this
      exact inv_classifyCore cfg st tid g.key t0 g (alookup g.key st.values) h hg
        ht0 hfl
    · rename_i x1 t0 val hph
      have ht0 : t0 ≤ st.now := by
        have := h.t0_le_now g hgmem
        rw [hph] at this
        exact this
      exact inv_classifyCore cfg st tid g.key t0 g (some val) h hg ht0 hfl
    · rename_i x1 t0 cid hph
      have ht0 : t0 ≤ st.now := by
        have := h.t0_le_now g hgmem
        rw [hph] at this
        exact this
      have hlb : 1 ≤ g.ticks := by
        have := h.ticks_lb g hgmem
        rw [hph] at this
        exact this
      split
      · exact h
      · rename_i x2 rec hrec
        have hcidlt : cid < st.calls.length := by
          rcases List.get?_eq_some.mp hrec with ⟨hlt, -⟩
          exact hlt
        split
        · rename_i hdone
          split
          · refine inv_set_get cfg st tid g
              ⟨g.key, .retry t0 ⟨rec.v, rec.created⟩, g.ticks⟩ st.stats h hg
              ht0 ?_ ?_ ?_ ?_ ?_ rfl rfl
            · intro t0' cid' hph2
              cases hph2
            · intro t0' v' err' cr cid' hph2
              cases hph2
            · intro t0' v' err' cr cid' hph2
              cases hph2
            · intro hs t0' v' cr src hph2
              cases hph2
            · exact hlb
          · rename_i hncond
            refine inv_set_get cfg st tid g
              ⟨g.key, .done t0 rec.v rec.err rec.created (some cid), g.ticks⟩
              st.stats h hg ht0 ?_ ?_ ?_ ?_ ?_ rfl rfl
            · intro t0' cid' hph2
              cases hph2
            · intro t0' v' err' cr cid' hph2
              cases hph2
              exact hcidlt
            · intro t0' v' err' cr cid' hph2 rec2 hrec2
              cases hph2
              rw [hrec] at hrec2
              cases hrec2
              exact ⟨hdone, rfl, rfl, rfl⟩
            · intro hs t0' v' cr src hph2
              injection hph2 with e1 e2 e3 e4 e5
              have hnc : cfg.strict = true → ¬rec.err = none := by simpa using hncond
              exact absurd e3 (hnc hs)
            · exact hlb
        · exact h
    · rename_i x1 t0 cid hph
      have ht0 : t0 ≤ st.now := by
        have := h.t0_le_now g hgmem
        rw [hph] at this
        exact this
      have hlb : 1 ≤ g.ticks := by
        have := h.ticks_lb g hgmem
        rw [hph] at this
        exact this
      split
      · exact h
      · rename_i x2 rec hrec
        have hcidlt : cid < st.calls.length := by
          rcases List.get?_eq_some.mp hrec with ⟨hlt, -⟩
          exact hlt
        split
        · rename_i hdone
          refine inv_set_get cfg st tid g
            ⟨g.key, .done t0 rec.v rec.err rec.created (some cid), g.ticks⟩
            st.stats h hg ht0 ?_ ?_ ?_ ?_ ?_ rfl rfl
          · intro t0' cid' hph2
            cases hph2
          · intro t0' v' err' cr cid' hph2
            cases hph2
            exact hcidlt
          · intro t0' v' err' cr cid' hph2 rec2 hrec2
            cases hph2
            rw [hrec] at hrec2
            cases hrec2
            exact ⟨hdone, rfl, rfl, rfl⟩
          · intro hs t0' v' cr src hph2
            injection hph2 with e1 e2 e3 e4 e5
            have hstarted : rec.started = true := h.started_of_done cid rec hrec hdone
            have hle := h.loading_created g hgmem t0 cid hph rec hrec hstarted
            rw [← e1, ← e4]
            omega
          · exact hlb
        · exact h
    · exact h


theorem inv_step (cfg : Cfg) (st : CState) (a : Act) (h : Inv cfg st)
    (hfl : cfg.freshFor ≤ cfg.ttl) (httl : 0 ≤ cfg.ttl) :
    Inv cfg (step cfg st a) := by
  cases a with
  | tick d => exact inv_tick cfg st d h
  | spawnGet k => exact inv_spawnGet cfg st k h
  | stepGet tid => exact inv_stepGet cfg st tid h hfl httl
  | startTask i => exact inv_startTask cfg st i h
  | finishTask i v err => exact inv_finishTask cfg st i v err h
  | forget k => exact inv_forgetKey cfg st k h
  | purge => exact inv_purgeAll cfg st h

theorem inv_foldl (cfg : Cfg) (acts : List Act) (st : CState) (h : Inv cfg st)
    (hfl : cfg.freshFor ≤ cfg.ttl) (httl : 0 ≤ cfg.ttl) :
    Inv cfg (List.foldl (step cfg) st acts) := by
  induction acts generalizing st with
  | nil => exact h
  | cons a acts ih => exact ih (step cfg st a) (inv_step cfg st a h hfl httl)

theorem inv_run (cfg : Cfg) (acts : List Act)
    (hfl : cfg.freshFor ≤ cfg.ttl) (httl : 0 ≤ cfg.ttl) :
    Inv cfg (run cfg acts) :=
  inv_foldl cfg acts init (inv_init cfg) hfl httl

/-- C3 amended: with strict coalescing (and `0 ≤ freshFor ≤ ttl` as `New`
guarantees), every completed `Get` that returned a nil error was served a
record with `t0 ≤ created + ttl`: never one already expired at the
caller's arrival. (The as-stated claim `created + freshFor > t0` fails: see
the counterexample; the grace branch serves stale records under strict
mode too.) -/
theorem strict_no_expired_serve (cfg : Cfg) (hstrict : cfg.strict = true)
    (hfl : cfg.freshFor ≤ cfg.ttl) (httl : 0 ≤ cfg.ttl) (acts : List Act)
    (g : GetThread) (hg : g ∈ (run cfg acts).gets) (t0 : Int) (v : Nat)
    (cr : Int) (src : Option Nat) (hph : g.phase = .done t0 v none cr src) :
    t0 ≤ cr + cfg.ttl :=
  (inv_run cfg acts hfl httl).strict_done_ok hstrict g hg t0 v cr src hph

/-- Witness for `strict_no_expired_serve` on the counterexample schedule:
the grace-served record satisfies `t0 = 5 ≤ created + ttl = 10`. -/
theorem strict_no_expired_serve_witness : (5 : Int) ≤ 0 + 10 :=
  strict_no_expired_serve ⟨1, 10, true⟩ rfl (by decide) (by decide)
    staleServeTrace ⟨1, .done 5 5 none 0 none, 1⟩ (by decide) 5 5 0 none rfl


/-- C4: when a loader invocation returns an error `e`: the backend is left
unchanged (the error is not cached, and the record from the last successful
invocation persists), `Replacements` is still incremented, the call record
holds the error verbatim, the in-flight slot for the key no longer refers
to this call, and the task is finished. Moreover, every `Get` — leader or
coalesced waiter — that completed against a call (in any execution) returns
that call's value and error verbatim. -/
theorem loader_error_handling :
    (∀ (st : CState) (i : Nat) (t : SetTask) (rec : CallRec) (v e : Nat),
      st.tasks.get? i = some t → t.phase = TaskPhase.running →
      st.calls.get? t.cid = some rec →
        (finishTask st i v (some e)).values = st.values ∧
        (finishTask st i v (some e)).stats.replacements =
          st.stats.replacements + 1 ∧
        (finishTask st i v (some e)).calls.get? t.cid =
          some { rec with v := v, err := some e, done := true } ∧
        alookup t.key (finishTask st i v (some e)).callsTable ≠ some t.cid ∧
        (finishTask st i v (some e)).tasks.get? i =
          some ⟨t.key, t.cid, TaskPhase.finished⟩) ∧
    (∀ (cfg : Cfg), cfg.freshFor ≤ cfg.ttl → 0 ≤ cfg.ttl →
      ∀ (acts : List Act) (g : GetThread), g ∈ (run cfg acts).gets →
      ∀ (t0 : Int) (v : Nat) (err : Option Nat) (cr : Int) (cid : Nat),
        g.phase = .done t0 v err cr (some cid) →
        ∀ rec, (run cfg acts).calls.get? cid = some rec →
          v = rec.v ∧ err = rec.err) := by
  constructor
  · intro st i t rec v e hti hph hrec
    have hilt : i < st.tasks.length := by
      rcases List.get?_eq_some.mp hti with ⟨hlt, -⟩
      exact hlt
    have hcidlt : t.cid < st.calls.length := by
      rcases List.get?_eq_some.mp hrec with ⟨hlt, -⟩
      exact hlt
    unfold finishTask
    rw [hti]
    simp only [hph]
    rw [hrec]
    dsimp only
    split
    · refine ⟨?_, rfl, ?_, ?_, ?_⟩
      · simp
      · simp only [get?_set_self st.calls t.cid _ hcidlt]
      · rw [alookup_aerase_self]
        simp
      · simp only [get?_set_self st.tasks i _ hilt]
    · rename_i hne
      refine ⟨rfl, rfl, ?_, ?_, ?_⟩
      · simp only [get?_set_self st.calls t.cid _ hcidlt]
      · exact hne
      · simp only [get?_set_self st.tasks i _ hilt]
  · intro cfg hfl httl acts g hg t0 v err cr cid hph rec hrec
    have := (inv_run cfg acts hfl httl).done_from_call g hg t0 v err cr cid hph
      rec hrec
    exact ⟨this.2.1, this.2.2.1⟩

/-- Witness for `loader_error_handling`: a one-task state whose loader
fails with error 9, and the counterexample-free error trace
`[spawnGet, stepGet, startTask, finishTask (err 9), stepGet]` for the
propagation part. -/
theorem loader_error_handling_witness :
    ((finishTask ⟨0, [(1, ⟨3, 0⟩)], [(1, 0)], [⟨true, 0, 0, none, false⟩],
        [], [⟨1, 0, TaskPhase.running⟩], ⟨0, 0, 1, 0⟩⟩ 0 7 (some 9)).values =
      [(1, ⟨3, 0⟩)] ∧
      (finishTask ⟨0, [(1, ⟨3, 0⟩)], [(1, 0)], [⟨true, 0, 0, none, false⟩],
        [], [⟨1, 0, TaskPhase.running⟩], ⟨0, 0, 1, 0⟩⟩ 0 7 (some 9)).stats.replacements = 0 + 1 ∧
      (finishTask ⟨0, [(1, ⟨3, 0⟩)], [(1, 0)], [⟨true, 0, 0, none, false⟩],
        [], [⟨1, 0, TaskPhase.running⟩], ⟨0, 0, 1, 0⟩⟩ 0 7 (some 9)).calls.get? 0 =
        some ⟨true, 0, 7, some 9, true⟩ ∧
      alookup 1 (finishTask ⟨0, [(1, ⟨3, 0⟩)], [(1, 0)], [⟨true, 0, 0, none, false⟩],
        [], [⟨1, 0, TaskPhase.running⟩], ⟨0, 0, 1, 0⟩⟩ 0 7 (some 9)).callsTable ≠ some 0 ∧
      (finishTask ⟨0, [(1, ⟨3, 0⟩)], [(1, 0)], [⟨true, 0, 0, none, false⟩],
        [], [⟨1, 0, TaskPhase.running⟩], ⟨0, 0, 1, 0⟩⟩ 0 7 (some 9)).tasks.get? 0 =
        some ⟨1, 0, TaskPhase.finished⟩) ∧
    (7 = 7 ∧ (some 9 : Option Nat) = some 9) := by
  constructor
  · exact loader_error_handling.1
      ⟨0, [(1, ⟨3, 0⟩)], [(1, 0)], [⟨true, 0, 0, none, false⟩],
        [], [⟨1, 0, TaskPhase.running⟩], ⟨0, 0, 1, 0⟩⟩ 0
      ⟨1, 0, TaskPhase.running⟩ ⟨true, 0, 0, none, false⟩ 7 9
      (by decide) rfl (by decide)
  · exact loader_error_handling.2 ⟨0, 10, false⟩ (by decide) (by decide)
      [.spawnGet 1, .stepGet 0, .startTask 0, .finishTask 0 7 (some 9), .stepGet 0]
      ⟨1, .done 0 7 (some 9) 0 (some 0), 1⟩ (by decide) 0 7 (some 9) 0 0 rfl
      ⟨true, 0, 7, some 9, true⟩ (by decide)


/-- In non-strict mode, no thread is ever in the retry phase and each
thread's counter-increment count is exactly determined by its phase
(0 before classification, 1 after). -/
def NS (st : CState) : Prop :=
  ∀ g ∈ st.gets, (∀ t0 val, g.phase ≠ Phase.retry t0 val) ∧
    g.ticks = phaseTicksLB g.phase

theorem ns_of_set (st : CState) (tid : Nat) (g' : GetThread) (hns : NS st)
    (hr : ∀ t0 val, g'.phase ≠ Phase.retry t0 val)
    (ht : g'.ticks = phaseTicksLB g'.phase) :
    ∀ g ∈ st.gets.set tid g', (∀ t0 val, g.phase ≠ Phase.retry t0 val) ∧
      g.ticks = phaseTicksLB g.phase := by
  intro g hg
  rcases List.mem_or_eq_of_mem_set hg with hh | hh
  · exact hns g hh
  · subst hh; exact ⟨hr, ht⟩

theorem ns_missStep (st : CState) (tid : Nat) (key : Nat) (t0 : Int)
    (g : GetThread) (hns : NS st) (hticks : g.ticks = 0) :
    NS (missStep st tid key t0 g.ticks) := by
  unfold missStep
  split
  · intro x hx
    refine ns_of_set st tid _ hns ?_ ?_ x hx
    · intro t0' val' hph
      cases hph
    · rw [hticks]
      rfl
  · intro x hx
    refine ns_of_set st tid _ hns ?_ ?_ x hx
    · intro t0' val' hph
      cases hph
    · rw [hticks]
      rfl

theorem ns_classifyCore (cfg : Cfg) (st : CState) (tid : Nat) (key : Nat)
    (t0 : Int) (g : GetThread) (valOpt : Option Val) (hns : NS st)
    (hticks : g.ticks = 0) :
    NS (classifyCore cfg st tid key t0 g.ticks valOpt) := by
  unfold classifyCore
  split
  · rename_i x0 val
    split
    · intro x hx
      refine ns_of_set st tid _ hns ?_ ?_ x hx
      · intro t0' val' hph
        cases hph
      · rw [hticks]
        rfl
    · split
      · split
        · intro x hx
          refine ns_of_set st tid _ hns ?_ ?_ x hx
          · intro t0' val' hph
            cases hph
          · rw [hticks]
            rfl
        · intro x hx
          refine ns_of_set st tid _ hns ?_ ?_ x hx
          · intro t0' val' hph
            cases hph
          · rw [hticks]
            rfl
      · exact ns_missStep st tid key t0 g hns hticks
  · exact ns_missStep st tid key t0 g hns hticks

theorem ns_step (cfg : Cfg) (st : CState) (a : Act)
    (hstrict : cfg.strict = false) (hns : NS st) : NS (step cfg st a) := by
  cases a with
  | tick d => exact hns
  | spawnGet k =>
    intro g hg
    rcases List.mem_append.mp hg with hh | hh
    · exact hns g hh
    · rw [List.mem_singleton.mp hh]
      constructor
      · intro t0 val hph
        cases hph
      · rfl
  | startTask i =>
    show NS (startTask st i)
    unfold startTask
    split
    all_goals try exact hns
    split
    all_goals try exact hns
    split
    all_goals exact hns
  | finishTask i v err =>
    show NS (finishTask st i v err)
    unfold finishTask
    split
    all_goals try exact hns
    split
    all_goals try exact hns
    split
    all_goals try exact hns
    dsimp only
    split
    all_goals exact hns
  | forget k => exact hns
  | purge => exact hns
  | stepGet tid =>
    show NS (stepGet cfg st tid)
    unfold stepGet
    split
    · exact hns
    · rename_i x0 g hg
      have hgmem : g ∈ st.gets := List.get?_mem hg
      split
      · rename_i x1 t0 hph
        have hticks : g.ticks = 0 := by
          have := (hns g hgmem).2
          rw [hph] at this
          exact this
        exact ns_classifyCore cfg st tid g.key t0 g _ hns hticks
      · rename_i x1 t0 val hph
        exact absurd hph ((hns g hgmem).1 t0 val)
      · rename_i x1 t0 cid hph
        split
        · exact hns
        · rename_i x2 rec hrec
          split
          · split
            · rename_i hcond
              rw [hstrict] at hcond
              exact absurd hcond.1 (by simp)
            · intro x hx
              refine ns_of_set st tid _ hns ?_ ?_ x hx
              · intro t0' val' hph2
                cases hph2
              · have := (hns g hgmem).2
                rw [hph] at this
                exact this
          · exact hns
      · rename_i x1 t0 cid hph
        split
        · exact hns
        · rename_i x2 rec hrec
          split
          · intro x hx
            refine ns_of_set st tid _ hns ?_ ?_ x hx
            · intro t0' val' hph2
              cases hph2
            · have := (hns g hgmem).2
              rw [hph] at this
              exact this
          · exact hns
      · exact hns

theorem ns_run (cfg : Cfg) (acts : List Act) (hstrict : cfg.strict = false) :
    NS (run cfg acts) := by
  unfold run
  have hgen : ∀ (l : List Act) (st : CState), NS st →
      NS (List.foldl (step cfg) st l) := by
    intro l
    induction l with
    | nil => intro st h; exact h
    | cons a l ih => intro st h; exact ih (step cfg st a) (ns_step cfg st a hstrict h)
  refine hgen acts init ?_
  intro g hg
  cases hg


theorem isDone_ticksLB (g : GetThread) (h : g.isDone = true) :
    phaseTicksLB g.phase = 1 := by
  unfold GetThread.isDone at h
  cases hph : g.phase <;> rw [hph] at h
  · cases h
  · cases h
  · cases h
  · cases h
  · rfl

theorem sum_map_eq_length (l : List α) (f : α → Nat)
    (h : ∀ x ∈ l, f x = 1) : (l.map f).sum = l.length := by
  induction l with
  | nil => rfl
  | cons x l ih =>
    simp only [List.map_cons, List.sum_cons, List.length_cons]
    rw [h x (List.mem_cons_self x l), ih (fun y hy => h y (List.mem_cons_of_mem x hy))]
    omega

/-- C5 amended: at every state `Replacements` equals the number of loader
invocations that have returned, and `Hits + GraceHits + Misses` equals the
total number of classification passes (each completed `Get` contributing at
least one); with strict coalescing disabled each completed `Get`
contributes exactly one, so at quiescent points the sum equals the number
of completed `Get` calls. In strict mode the sum can exceed the number of
completed `Get` calls (see the counterexample). -/
theorem counter_conservation_amended :
    (∀ (cfg : Cfg), cfg.freshFor ≤ cfg.ttl → 0 ≤ cfg.ttl → ∀ acts : List Act,
      (run cfg acts).stats.replacements = tasksFinished (run cfg acts) ∧
      (run cfg acts).stats.hits + (run cfg acts).stats.graceHits +
        (run cfg acts).stats.misses = ticksSum (run cfg acts) ∧
      (∀ g ∈ (run cfg acts).gets, g.isDone = true → 1 ≤ g.ticks)) ∧
    (∀ (cfg : Cfg), cfg.strict = false → cfg.freshFor ≤ cfg.ttl →
      0 ≤ cfg.ttl → ∀ acts : List Act, quiescent (run cfg acts) = true →
        (run cfg acts).stats.hits + (run cfg acts).stats.graceHits +
          (run cfg acts).stats.misses = doneGets (run cfg acts)) := by
  constructor
  · intro cfg hfl httl acts
    have hinv := inv_run cfg acts hfl httl
    refine ⟨hinv.repl_count, hinv.ticks_count, ?_⟩
    intro g hg hdone
    have hlb := hinv.ticks_lb g hg
    rw [isDone_ticksLB g hdone] at hlb
    exact hlb
  · intro cfg hstrict hfl httl acts hq
    have hinv := inv_run cfg acts hfl httl
    have hns := ns_run cfg acts hstrict
    have hq1 : ∀ g ∈ (run cfg acts).gets, g.isDone = true := by
      unfold quiescent at hq
      rcases Bool.and_eq_true_iff.mp hq with ⟨hq1, -⟩
      exact fun g hg => List.all_eq_true.mp hq1 g hg
    have hticks1 : ∀ g ∈ (run cfg acts).gets, GetThread.ticks g = 1 := by
      intro g hg
      have := (hns g hg).2
      rw [this, isDone_ticksLB g (hq1 g hg)]
    have hsum : ticksSum (run cfg acts) = (run cfg acts).gets.length := by
      unfold ticksSum
      exact sum_map_eq_length _ _ hticks1
    have hdg : doneGets (run cfg acts) = (run cfg acts).gets.length := by
      unfold doneGets
      exact List.countP_eq_length.mpr hq1
    rw [hinv.ticks_count, hsum, hdg]

/-- Witness for `counter_conservation_amended` at the strict
double-counting schedule (part 1) and a non-strict two-`Get` schedule
(part 2). -/
theorem counter_conservation_amended_witness :
    ((run ⟨5, 5, true⟩ doubleCountTrace).stats.replacements =
        tasksFinished (run ⟨5, 5, true⟩ doubleCountTrace) ∧
      (run ⟨5, 5, true⟩ doubleCountTrace).stats.hits +
        (run ⟨5, 5, true⟩ doubleCountTrace).stats.graceHits +
        (run ⟨5, 5, true⟩ doubleCountTrace).stats.misses =
        ticksSum (run ⟨5, 5, true⟩ doubleCountTrace) ∧
      (∀ g ∈ (run ⟨5, 5, true⟩ doubleCountTrace).gets,
        g.isDone = true → 1 ≤ g.ticks)) ∧
    ((run ⟨5, 5, false⟩ doubleCountTrace).stats.hits +
        (run ⟨5, 5, false⟩ doubleCountTrace).stats.graceHits +
        (run ⟨5, 5, false⟩ doubleCountTrace).stats.misses =
        doneGets (run ⟨5, 5, false⟩ doubleCountTrace)) := by
  constructor
  · exact counter_conservation_amended.1 ⟨5, 5, true⟩ (by decide) (by decide)
      doubleCountTrace
  · exact counter_conservation_amended.2 ⟨5, 5, false⟩ rfl (by decide)
      (by decide) doubleCountTrace (by decide)

end Sc


namespace Sc

/-- Schedules that never run `Forget`/`ForgetIf`/`Purge`. -/
def Act.isForgetful : Act → Bool
  | .forget _ => true
  | .purge => true
  | _ => false

/-- In executions without `Forget`/`Purge`, every call that is scheduled
or in flight is still registered in the in-flight table under its key. -/
def NF (st : CState) : Prop :=
  ∀ t ∈ st.tasks,
    (t.phase = TaskPhase.notStarted ∨ t.phase = TaskPhase.running) →
    alookup t.key st.callsTable = some t.cid

theorem nf_missStep (st : CState) (tid : Nat) (key : Nat) (t0 : Int)
    (ticks : Nat) (hnf : NF st) : NF (missStep st tid key t0 ticks) := by
  unfold missStep
  split
  · exact hnf
  · rename_i htable
    intro t ht hact
    rcases List.mem_append.mp ht with hh | hh
    · by_cases hk : t.key = key
      · exfalso
        have := hnf t hh hact
        rw [hk, htable] at this
        cases this
      · show alookup t.key (aupsert key st.calls.length st.callsTable) = some t.cid
        rw [alookup_aupsert_ne t.key key hk]
        exact hnf t hh hact
    · rw [List.mem_singleton.mp hh]
      exact alookup_aupsert_self key st.calls.length st.callsTable

theorem nf_classifyCore (cfg : Cfg) (st : CState) (tid : Nat) (key : Nat)
    (t0 : Int) (ticks : Nat) (valOpt : Option Val) (hnf : NF st) :
    NF (classifyCore cfg st tid key t0 ticks valOpt) := by
  unfold classifyCore
  split
  · rename_i x0 val
    split
    · exact hnf
    · split
      · split
        · exact hnf
        · rename_i htable
          intro t ht hact
          rcases List.mem_append.mp ht with hh | hh
          · by_cases hk : t.key = key
            · exfalso
              have := hnf t hh hact
              rw [hk, htable] at this
              cases this
            · show alookup t.key (aupsert key st.calls.length st.callsTable) =
                some t.cid
              rw [alookup_aupsert_ne t.key key hk]
              exact hnf t hh hact
          · rw [List.mem_singleton.mp hh]
            exact alookup_aupsert_self key st.calls.length st.callsTable
      · exact nf_missStep st tid key t0 ticks hnf
  · exact nf_missStep st tid key t0 ticks hnf

theorem nf_step (cfg : Cfg) (st : CState) (a : Act) (hinv : Inv cfg st)
    (hnf : NF st) (hnof : a.isForgetful = false) : NF (step cfg st a) := by
  cases a with
  | tick d => exact hnf
  | spawnGet k => exact hnf
  | forget k => cases hnof
  | purge => cases hnof
  | stepGet tid =>
    show NF (stepGet cfg st tid)
    unfold stepGet
    split
    · exact hnf
    · rename_i x0 g hg
      split
      · exact nf_classifyCore cfg st tid g.key _ g.ticks _ hnf
      · exact nf_classifyCore cfg st tid g.key _ g.ticks _ hnf
      · split
        · exact hnf
        · split
          · split
            · exact hnf
            · exact hnf
          · exact hnf
      · split
        · exact hnf
        · split
          · exact hnf
          · exact hnf
      · exact hnf
  | startTask i =>
    show NF (startTask st i)
    unfold startTask
    split
    all_goals try exact hnf
    split
    all_goals try exact hnf
    split
    all_goals try exact hnf
    rename_i x0 t hti x1 hph x2 rec hrec
    intro t' ht' hact
    rcases List.mem_or_eq_of_mem_set ht' with hh | hh
    · exact hnf t' hh hact
    · subst hh
      exact hnf t (List.get?_mem hti) (Or.inl hph)
  | finishTask i v err =>
    show NF (finishTask st i v err)
    unfold finishTask
    split
    all_goals try exact hnf
    split
    all_goals try exact hnf
    split
    all_goals try exact hnf
    rename_i x0 t hti x1 hph x2 rec hrec
    dsimp only
    split
    · rename_i htable
      intro t' ht' hact
      by_cases hc : t'.cid = t.cid
      · exfalso
        have ht'eq : t' = ⟨t.key, t.cid, TaskPhase.finished⟩ :=
          eq_of_mem_set_of_nodup_map SetTask.cid st.tasks i t _ t'
            hinv.cids_nodup hti rfl ht' hc
        rw [ht'eq] at hact
        rcases hact with hh | hh
        · cases hh
        · cases hh
      · rcases List.mem_or_eq_of_mem_set ht' with hh | hh
        · by_cases hk : t'.key = t.key
          · exfalso
            have := hnf t' hh hact
            rw [hk, htable] at this
            injection this with h2
            exact hc h2.symm
          · show alookup t'.key (aerase t.key st.callsTable) = some t'.cid
            rw [alookup_aerase_ne t'.key t.key hk]
            exact hnf t' hh hact
        · subst hh
          simp at hc
    · intro t' ht' hact
      rcases List.mem_or_eq_of_mem_set ht' with hh | hh
      · exact hnf t' hh hact
      · subst hh
        rcases hact with hh2 | hh2
        · cases hh2
        · cases hh2

theorem len_le_one_of_all_eq {α β : Type} (l : List α) (f : α → β)
    (hnd : (l.map f).Nodup) (c : β) (h : ∀ x ∈ l, f x = c) : l.length ≤ 1 := by
  cases l with
  | nil => simp
  | cons x l2 =>
    cases l2 with
    | nil => simp
    | cons y l3 =>
      exfalso
      simp only [List.map_cons, List.nodup_cons] at hnd
      apply hnd.1
      have hx := h x (List.mem_cons_self x _)
      have hy := h y (List.mem_cons_of_mem x (List.mem_cons_self y _))
      rw [hx, ← hy]
      exact List.mem_cons_self _ _

theorem nf_run (cfg : Cfg) (acts : List Act)
    (hfl : cfg.freshFor ≤ cfg.ttl) (httl : 0 ≤ cfg.ttl)
    (hnof : ∀ a ∈ acts, a.isForgetful = false) : NF (run cfg acts) := by
  unfold run
  have hgen : ∀ (l : List Act) (st : CState), Inv cfg st → NF st →
      (∀ a ∈ l, a.isForgetful = false) → NF (List.foldl (step cfg) st l) := by
    intro l
    induction l with
    | nil => intro st _ h _; exact h
    | cons a l ih =>
      intro st hinv hnf hno
      exact ih (step cfg st a)
        (inv_step cfg st a hinv hfl httl)
        (nf_step cfg st a hinv hnf (hno a (List.mem_cons_self a l)))
        (fun b hb => hno b (List.mem_cons_of_mem a hb))
  refine hgen acts init (inv_init cfg) ?_ hnof
  intro t ht
  cases ht

end Sc


namespace Sc

theorem activeFor_le_one_of_nf (cfg : Cfg) (st : CState) (hinv : Inv cfg st)
    (hnf : NF st) (k : Nat) : activeFor st k ≤ 1 := by
  unfold activeFor
  rw [List.countP_eq_length_filter]
  have hsub :
      List.Sublist
        (st.tasks.filter (fun t => decide (t.key = k) &&
          (decide (t.phase = TaskPhase.notStarted) ||
            decide (t.phase = TaskPhase.running)))) st.tasks :=
    List.filter_sublist _
  have hnd := List.Nodup.sublist (hsub.map SetTask.cid) hinv.cids_nodup
  have hmem : ∀ x ∈ st.tasks.filter (fun t => decide (t.key = k) &&
      (decide (t.phase = TaskPhase.notStarted) ||
        decide (t.phase = TaskPhase.running))),
      alookup k st.callsTable = some x.cid := by
    intro x hx
    simp only [List.mem_filter, Bool.and_eq_true, Bool.or_eq_true,
      decide_eq_true_eq] at hx
    have := hnf x hx.1 hx.2.2
    rw [hx.2.1] at this
    exact this
  cases htab : alookup k st.callsTable with
  | none =>
    have : st.tasks.filter (fun t => decide (t.key = k) &&
        (decide (t.phase = TaskPhase.notStarted) ||
          decide (t.phase = TaskPhase.running))) = [] := by
      apply List.eq_nil_iff_forall_not_mem.mpr
      intro x hx
      have := hmem x hx
      rw [htab] at this
      cases this
    rw [this]
    simp
  | some c =>
    apply len_le_one_of_all_eq _ SetTask.cid hnd c
    intro x hx
    have := hmem x hx
    rw [htab] at this
    injection this with h2
    exact h2.symm

/-- C1 amended: (i) a `Get` whose locked classification finds no stored
record but an in-flight call for its key transitions to waiting on that
call, leaving the scheduled `c.set` executions and the call list
unchanged (it never starts a new loader invocation); (ii) in every
execution that never runs `Forget`/`Purge`, at most one loader invocation
per key is in flight (scheduled or running) at any instant. -/
theorem single_flight_amended (cfg : Cfg)
    (hfl : cfg.freshFor ≤ cfg.ttl) (httl : 0 ≤ cfg.ttl) :
    (∀ (st : CState) (tid : Nat) (g : GetThread) (t0 : Int) (cid : Nat),
        st.gets.get? tid = some g → g.phase = Phase.classify t0 →
        alookup g.key st.values = none →
        alookup g.key st.callsTable = some cid →
        (stepGet cfg st tid).tasks = st.tasks ∧
        (stepGet cfg st tid).calls = st.calls ∧
        (stepGet cfg st tid).gets.get? tid =
          some ⟨g.key, Phase.waiting t0 cid, g.ticks + 1⟩) ∧
    (∀ acts : List Act, (∀ a ∈ acts, a.isForgetful = false) →
        ∀ k, activeFor (run cfg acts) k ≤ 1) := by
  constructor
  · intro st tid g t0 cid hg hph hvals htable
    have htid : tid < st.gets.length := (List.get?_eq_some.mp hg).1
    unfold stepGet
    rw [hg]
    dsimp only
    rw [hph]
    dsimp only
    rw [hvals]
    unfold classifyCore missStep
    dsimp only
    rw [htable]
    refine ⟨rfl, rfl, ?_⟩
    exact get?_set_self st.gets tid _ htid
  · intro acts hno k
    exact activeFor_le_one_of_nf cfg (run cfg acts)
      (inv_run cfg acts hfl httl) (nf_run cfg acts hfl httl hno) k

theorem single_flight_amended_witness :
    (stepGet ⟨1, 1, false⟩
        ⟨0, [], [(1, 0)], [freshCall], [⟨1, Phase.classify 0, 0⟩],
          [⟨1, 0, TaskPhase.notStarted⟩], ⟨0, 0, 1, 0⟩⟩ 0).gets.get? 0 =
      some ⟨1, Phase.waiting 0 0, 1⟩ ∧
    activeFor (run ⟨1, 1, false⟩
      [Act.spawnGet 1, Act.stepGet 0, Act.startTask 0, Act.spawnGet 1,
        Act.stepGet 1]) 1 ≤ 1 :=
  ⟨((single_flight_amended ⟨1, 1, false⟩ (by decide) (by decide)).1
      ⟨0, [], [(1, 0)], [freshCall], [⟨1, Phase.classify 0, 0⟩],
        [⟨1, 0, TaskPhase.notStarted⟩], ⟨0, 0, 1, 0⟩⟩ 0
      ⟨1, Phase.classify 0, 0⟩ 0 0 rfl rfl rfl rfl).2.2,
    (single_flight_amended ⟨1, 1, false⟩ (by decide) (by decide)).2
      [Act.spawnGet 1, Act.stepGet 0, Act.startTask 0, Act.spawnGet 1,
        Act.stepGet 1] (by decide) 1⟩

end Sc
